import Mathlib

/-!
Verification development for the persistent element store
(`src/core/src/index/PersistentElementStore.cpp`).

The C++ implementation is shallowly embedded: files are byte lists,
stream positions are explicit naturals, and each public operation of
`PersistentElementStoreImpl` becomes a state-passing function.  External
collaborators that live outside this file in the original project
(the payload codec `ElementStream`, the bitmap codec `BitmapStream`,
the inverted index `BitmapIndex`, and the LRU cache `LruCache`) are
modelled from the spec, as documented at each definition.
-/

namespace PES

/-- Little-endian byte encoding of a natural into `w` bytes
(models how C++ `fstream::write` lays out a fixed-width integer). -/
def toBytesLE : Nat → Nat → List Nat
  | 0, _ => []
  | w + 1, n => n % 256 :: toBytesLE w (n / 256)

/-- Little-endian byte decoding (models a fixed-width `fstream::read`). -/
def fromBytesLE : List Nat → Nat
  | [] => 0
  | b :: bs => b + 256 * fromBytesLE bs

@[simp] theorem toBytesLE_length (w n : Nat) : (toBytesLE w n).length = w := by
  induction w generalizing n with
  | zero => rfl
  | succ w ih => simp [toBytesLE, ih]

theorem fromBytesLE_toBytesLE (w n : Nat) :
    fromBytesLE (toBytesLE w n) = n % 256 ^ w := by
  induction w generalizing n with
  | zero => simp [toBytesLE, fromBytesLE, Nat.mod_one]
  | succ w ih =>
      simp only [toBytesLE, fromBytesLE, ih]
      rw [pow_succ', Nat.mod_mul]

theorem toBytesLE_mod (w n : Nat) :
    toBytesLE w (n % 256 ^ w) = toBytesLE w n := by
  induction w generalizing n with
  | zero => rfl
  | succ w ih =>
      simp only [toBytesLE]
      rw [pow_succ']
      congr 1
      · exact Nat.mod_mod_of_dvd n ⟨256 ^ w, rfl⟩
      · have h : (n % 256 + 256 * (n / 256 % 256 ^ w)) / 256 = n / 256 % 256 ^ w := by
          omega
        rw [Nat.mod_mul, h, ih]

/-! ## Core data model -/

/-- Hierarchical spatial address (`utymap::QuadKey`): level of detail plus
tile coordinates. -/
structure QuadKey where
  levelOfDetail : Nat
  tileX : Nat
  tileY : Nat
deriving DecidableEq, Repr

/-- Axis-aligned bounding box.  The C++ code uses floating-point geographic
coordinates; geometry here is modelled on an integer grid, which is all the
claims need (they are about filter composition, not real arithmetic). -/
structure BoundingBox where
  minX : Nat
  minY : Nat
  maxX : Nat
  maxY : Nat
deriving DecidableEq, Repr

/-- Level-of-detail range (`utymap::LodRange`). -/
structure LodRange where
  start : Nat
  stop : Nat
deriving DecidableEq, Repr

/-- A map element (`utymap::entities::Element`): 64-bit identifier, geometry,
indexable terms (already tokenized to string-table ids) and an opaque
serialized payload. -/
structure Element where
  id : Nat
  box : BoundingBox
  terms : List Nat
  payload : List Nat
deriving DecidableEq, Repr

/-- Modelled from the spec: the geometric intersection predicate
`intersects(element, boundingBox)` supplied by `ElementGeometryVisitor`;
standard axis-aligned box overlap. -/
def intersects (e : Element) (b : BoundingBox) : Bool :=
  decide (e.box.minX ≤ b.maxX) && decide (b.minX ≤ e.box.maxX) &&
  decide (e.box.minY ≤ b.maxY) && decide (b.minY ≤ e.box.maxY)

/-- A boolean term query (`BitmapIndex::Query`): NOT / AND / OR term lists,
a bounding box and a level-of-detail range. -/
structure Query where
  notTerms : List Nat
  andTerms : List Nat
  orTerms : List Nat
  boundingBox : BoundingBox
  lodRange : LodRange
deriving DecidableEq, Repr

/-! ## Payload codec

Modelled from the spec: `ElementStream::write`/`ElementStream::read` is the
external payload codec producing one self-delimiting record per element.
The record carries everything but the identifier (which is stored in the
index entry and passed back to `read`): the bounding box, the term list and
the payload bytes, each fixed-width or length-prefixed. -/

/-- Number of bytes of the serialized record of `e`. -/
def recSize (e : Element) : Nat :=
  24 + 4 * e.terms.length + e.payload.length

/-- Serialized data record: 16 box bytes, 4-byte term count, the terms
(4 bytes each), 4-byte payload length, then the payload verbatim. -/
def encodeRecord (e : Element) : List Nat :=
  toBytesLE 4 e.box.minX ++ toBytesLE 4 e.box.minY ++
  toBytesLE 4 e.box.maxX ++ toBytesLE 4 e.box.maxY ++
  toBytesLE 4 e.terms.length ++ (e.terms.map (toBytesLE 4)).flatten ++
  toBytesLE 4 e.payload.length ++ e.payload

@[simp] theorem encodeRecord_length (e : Element) :
    (encodeRecord e).length = recSize e := by
  simp only [encodeRecord, recSize, List.length_append, toBytesLE_length]
  have h : ((e.terms.map (toBytesLE 4)).flatten).length = 4 * e.terms.length := by
    induction e.terms with
    | nil => rfl
    | cons t ts ih => simp [ih]; omega
  omega

/-- Decode one record of the data log at byte offset `off`, reconstructing
the element with the externally supplied identifier `id`
(`ElementStream::read(dataFile, id)`). -/
def decodeRecord (db : List Nat) (off : Nat) (id : Nat) : Option Element :=
  let s := db.drop off
  let k := fromBytesLE ((s.drop 16).take 4)
  let p := fromBytesLE ((s.drop (20 + 4 * k)).take 4)
  if 24 + 4 * k + p ≤ s.length then
    some { id := id
         , box := { minX := fromBytesLE (s.take 4)
                  , minY := fromBytesLE ((s.drop 4).take 4)
                  , maxX := fromBytesLE ((s.drop 8).take 4)
                  , maxY := fromBytesLE ((s.drop 12).take 4) }
         , terms := (List.range k).map (fun i => fromBytesLE ((s.drop (20 + 4 * i)).take 4))
         , payload := (s.drop (24 + 4 * k)).take p }
  else none

/-! ## Index entries -/

/-- One fixed 12-byte index record: 8-byte identifier then 4-byte offset. -/
def encodeEntry (id off : Nat) : List Nat :=
  toBytesLE 8 id ++ toBytesLE 4 off

@[simp] theorem encodeEntry_length (id off : Nat) :
    (encodeEntry id off).length = 12 := by
  simp [encodeEntry]

/-- Read the `i`-th 12-byte index entry (`readIndexEntry` after a seek to
byte `12 * i`): identifier and data offset, or `none` past end of file. -/
def entryAt (ib : List Nat) (i : Nat) : Option (Nat × Nat) :=
  let c := (ib.drop (12 * i)).take 12
  if c.length = 12 then some (fromBytesLE (c.take 8), fromBytesLE (c.drop 8))
  else none

/-! ## Bitmap term index

Modelled from the spec: `BitmapIndex` maintains, per tile, a mapping from
term to growable bit-vector over insertion order, and answers boolean
(NOT/AND/OR) queries by bitwise combination, producing the ascending
sequence of set-bit positions. -/

/-- Per-tile term → bit-vector mapping (association list). -/
abbrev Bitmap := List (Nat × List Bool)

/-- The bit-vector of a term (empty when the term is absent). -/
def bmpVec : Bitmap → Nat → List Bool
  | [], _ => []
  | p :: b, t => if p.1 = t then p.2 else bmpVec b t

/-- Bit `pos` of the term's bit-vector. -/
def bmpBit (b : Bitmap) (t : Nat) (pos : Nat) : Bool :=
  (bmpVec b t).getD pos false

/-- Grow a bit-vector so that it covers index `i`, then set bit `i`. -/
def setBit (v : List Bool) (i : Nat) : List Bool :=
  (v ++ List.replicate (i + 1 - v.length) false).set i true

/-- Replace (or append) the binding of term `t`. -/
def bmpSet : Bitmap → Nat → List Bool → Bitmap
  | [], t, v => [(t, v)]
  | p :: b, t, v => if p.1 = t then (t, v) :: b else p :: bmpSet b t v

/-- Modelled from the spec: `BitmapIndex::add(element, quadKey, order)` —
for every term attached to the element, ensure that term's bit-vector
covers `order` and set bit `order`. -/
def bmpAdd (b : Bitmap) (terms : List Nat) (order : Nat) : Bitmap :=
  terms.foldl (fun acc t => bmpSet acc t (setBit (bmpVec acc t) order)) b

/-- Length of the longest bit-vector: the universe of candidate positions. -/
def bmpUnivLen (b : Bitmap) : Nat :=
  b.foldl (fun m p => max m p.2.length) 0

/-- Modelled from the spec: evaluation of the boolean query over one tile's
bitmaps — `(OR of orTerms) AND (AND of andTerms) AND NOT (OR of notTerms)`,
an empty `orTerms` acting as a universal set; the result is the ascending
list of matching insertion orders. -/
def bmpMatches (b : Bitmap) (q : Query) : List Nat :=
  (List.range (bmpUnivLen b)).filter fun pos =>
    (q.orTerms.isEmpty || q.orTerms.any (fun t => bmpBit b t pos)) &&
    q.andTerms.all (fun t => bmpBit b t pos) &&
    !(q.notTerms.any (fun t => bmpBit b t pos))

/-! ## On-disk state and cached handles -/

/-- The three per-tile files.  `none` means the file does not exist on disk;
the bitmap blob is stored in decoded form (its byte format is owned by the
external `BitmapStream` codec). -/
structure TileFiles where
  dataF : Option (List Nat)
  indexF : Option (List Nat)
  bitmapF : Option Bitmap
deriving DecidableEq, Repr

/-- The persistent store root: an association from quad key to its files. -/
abbrev Disk := List (QuadKey × TileFiles)

def lookupTile : Disk → QuadKey → Option TileFiles
  | [], _ => none
  | p :: d, q => if p.1 = q then some p.2 else lookupTile d q

def setTile : Disk → QuadKey → TileFiles → Disk
  | [], q, tf => [(q, tf)]
  | p :: d, q, tf => if p.1 = q then (q, tf) :: d else p :: setTile d q tf

/-- Bytes of the tile's data log (empty when the file is absent). -/
def dataBytes (d : Disk) (q : QuadKey) : List Nat :=
  (((lookupTile d q).bind TileFiles.dataF).getD [])

/-- Bytes of the tile's index log (empty when the file is absent). -/
def indexBytes (d : Disk) (q : QuadKey) : List Nat :=
  (((lookupTile d q).bind TileFiles.indexF).getD [])

/-- The tile's on-disk bitmap blob, when the `.bmp` file exists. -/
def blobOf (d : Disk) (q : QuadKey) : Option Bitmap :=
  (lookupTile d q).bind TileFiles.bitmapF

/-- A `QuadKeyData` handle: the open data/index streams are reduced to their
shared get/put positions (the bytes live on disk and every write goes
straight through), plus the lazily populated in-memory bitmap. -/
structure Handle where
  dataPos : Nat
  indexPos : Nat
  bitmap : Bitmap
deriving DecidableEq, Repr

/-- The LRU resource cache, most recently used first.  Modelled from the
spec: fixed capacity 12, hit promotes to most-recently-used, miss inserts
after evicting the least-recently-used entry at capacity. -/
abbrev Cache := List (QuadKey × Handle)

def cacheCapacity : Nat := 12

def cacheFind : Cache → QuadKey → Option Handle
  | [], _ => none
  | p :: c, q => if p.1 = q then some p.2 else cacheFind c q

/-- Drop the entry of `q`. -/
def cacheDrop : Cache → QuadKey → Cache
  | [], _ => []
  | p :: c, q => if p.1 = q then cacheDrop c q else p :: cacheDrop c q

/-- Promote the entry of `q` to most-recently-used. -/
def cachePromote (c : Cache) (q : QuadKey) : Cache :=
  match cacheFind c q with
  | some h => (q, h) :: cacheDrop c q
  | none => c

/-- Insert a fresh entry, evicting the least-recently-used one at capacity
(eviction closes the evicted handle's streams; it never touches disk). -/
def cachePut (c : Cache) (q : QuadKey) (h : Handle) : Cache :=
  (q, h) :: (if cacheCapacity ≤ c.length then c.dropLast else c)

/-- Whole engine state: the file system plus the resource cache. -/
structure StoreState where
  disk : Disk
  cache : Cache
deriving DecidableEq, Repr

def initState : StoreState := { disk := [], cache := [] }

/-! ## Operations of `PersistentElementStoreImpl`

Each function is a state-passing translation of the corresponding method
in `src/core/src/index/PersistentElementStore.cpp`. -/

/-- Opening a tile's log pair (`QuadKeyData` constructor, lines 42–54):
`fstream::open` with `in|out|binary|app|ate` creates a missing file and
positions the stream at end of file; the handle starts with an empty
(not yet loaded) bitmap. -/
def openTile (d : Disk) (q : QuadKey) : Disk × Handle :=
  let tf := (lookupTile d q).getD { dataF := none, indexF := none, bitmapF := none }
  let db := tf.dataF.getD []
  let ib := tf.indexF.getD []
  ( setTile d q { dataF := some db, indexF := some ib, bitmapF := tf.bitmapF }
  , { dataPos := db.length, indexPos := ib.length, bitmap := [] } )

/-- `getQuadKeyData` (lines 208–219): cache hit promotes and returns the
cached handle; miss opens the tile (creating absent files) and inserts it,
evicting the least-recently-used entry at capacity. -/
def getQuadKeyData (s : StoreState) (q : QuadKey) : Handle × StoreState :=
  match cacheFind s.cache q with
  | some h => (h, { disk := s.disk, cache := cachePromote s.cache q })
  | none =>
      let (d', h) := openTile s.disk q
      (h, { disk := d', cache := cachePut s.cache q h })

/-- Mutation through the shared `QuadKeyData` pointer: update the cached
handle of `q` in place. -/
def cacheModify : Cache → QuadKey → (Handle → Handle) → Cache
  | [], _, _ => []
  | p :: c, q, f =>
      (if p.1 = q then (p.1, f p.2) else p) :: cacheModify c q f

def modifyHandle (s : StoreState) (q : QuadKey) (f : Handle → Handle) : StoreState :=
  { disk := s.disk, cache := cacheModify s.cache q f }

/-- `QuadKeyData::getBitmap` (lines 56–64): when the in-memory bitmap is
empty it is (re-)read from the on-disk blob — a failed open / missing file
leaves it empty.  The returned flag records whether a disk read happened. -/
def getBitmapOp (h : Handle) (blob : Option Bitmap) : Handle × Bitmap × Bool :=
  if h.bitmap.isEmpty then
    let loaded := blob.getD []
    ({ h with bitmap := loaded }, loaded, true)
  else (h, h.bitmap, false)

/-- Replace the tile's on-disk bitmap blob (the `trunc` rewrite of the
`.bmp` file in `store`, lines 135–136). -/
def setBlob (d : Disk) (q : QuadKey) (b : Bitmap) : Disk :=
  let tf := (lookupTile d q).getD { dataF := none, indexF := none, bitmapF := none }
  setTile d q { tf with bitmapF := some b }

/-- Replace the tile's data and index log bytes. -/
def setLogs (d : Disk) (q : QuadKey) (db ib : List Nat) : Disk :=
  let tf := (lookupTile d q).getD { dataF := none, indexF := none, bitmapF := none }
  setTile d q { tf with dataF := some db, indexF := some ib }

/-- `store` (lines 117–137), also returning the insertion order it assigned.

* `offset` is `tellg()` of the data stream, truncated to 32 bits, taken at
  whatever position the stream currently has (line 119);
* `order` is `tellg()` of the index stream divided by the fixed 12-byte
  entry width, truncated to 32 bits (lines 120–121);
* both logs are appended to (`app` mode writes at end of file and the
  explicit `seekg(0, end)` leaves the positions there);
* `add` updates the in-memory bitmap through the `getBitmap` hook (which
  lazily loads it), and the whole blob is rewritten to disk. -/
def storeE (s : StoreState) (e : Element) (q : QuadKey) : StoreState × Nat :=
  let (h, s1) := getQuadKeyData s q
  let offset := h.dataPos % 2 ^ 32
  let order := (h.indexPos / 12) % 2 ^ 32
  let db := dataBytes s1.disk q
  let ib := indexBytes s1.disk q
  let db' := db ++ encodeRecord e
  let ib' := ib ++ encodeEntry e.id offset
  let s2 := { disk := setLogs s1.disk q db' ib', cache := s1.cache }
  let s3 := modifyHandle s2 q
    (fun h0 => { h0 with dataPos := db'.length, indexPos := ib'.length })
  -- BitmapIndex::add via the getBitmap hook (line 133, hook lines 202–204)
  let (h3, s4) := getQuadKeyData s3 q
  let (h4, bmp, _) := getBitmapOp h3 (blobOf s4.disk q)
  let bmp' := bmpAdd bmp e.terms order
  let s5 := modifyHandle s4 q (fun _ => { h4 with bitmap := bmp' })
  -- full-blob rewrite (lines 134–136)
  let (h5, s6) := getQuadKeyData s5 q
  let (h6, bmpW, _) := getBitmapOp h5 (blobOf s6.disk q)
  let s7 := modifyHandle s6 q (fun _ => h6)
  ({ disk := setBlob s7.disk q bmpW, cache := s7.cache }, order)

/-- `store` / `PersistentElementStore::save`. -/
def store (s : StoreState) (e : Element) (q : QuadKey) : StoreState :=
  (storeE s e q).1

/-- The sequential scan loop of `search(QuadKey)` (lines 156–163): at
iteration `i` the cancellation token is checked once; then the next index
entry is read, the data stream seeks to the recorded offset and one record
is decoded and delivered.  Returns the visited elements, the number of
token checks performed, and the final data-stream position. -/
def scanLoop (ib db : List Nat) (cancel : Nat → Bool) :
    Nat → Nat → Nat → List Element × Nat × Nat
  | _, 0, dp => ([], 0, dp)
  | i, fuel + 1, dp =>
      if cancel i then ([], 1, dp)
      else
        match entryAt ib i with
        | some (id, off) =>
            match decodeRecord db off id with
            | some e =>
                let (vs, ck, dp') := scanLoop ib db cancel (i + 1) fuel (off + recSize e)
                (e :: vs, ck + 1, dp')
            | none =>
                let (vs, ck, dp') := scanLoop ib db cancel (i + 1) fuel off
                (vs, ck + 1, dp')
        | none =>
            let (vs, ck, dp') := scanLoop ib db cancel (i + 1) fuel dp
            (vs, ck + 1, dp')

/-- `search(QuadKey, visitor, cancelToken)` (lines 148–164): the entry
count is the index stream's *current* `tellg()` divided by 12; the index
stream then seeks to the beginning and entries are streamed in insertion
order.  Returns the new state, the visited elements and the number of
cancellation checks. -/
def searchTile (s : StoreState) (q : QuadKey) (cancel : Nat → Bool) :
    StoreState × List Element × Nat :=
  let (h, s1) := getQuadKeyData s q
  let count := (h.indexPos / 12) % 2 ^ 32
  let ib := indexBytes s1.disk q
  let db := dataBytes s1.disk q
  let (vis, checks, dp') := scanLoop ib db cancel 0 count h.dataPos
  let s2 := modifyHandle s1 q
    (fun h0 => { h0 with indexPos := 12 * vis.length, dataPos := dp' })
  (s2, vis, checks)

/-- `notify` (lines 189–200): random access by insertion order — seek the
index stream to `order * 12`, read one entry, seek the data stream to the
recorded offset and decode one element. -/
def notifyOp (s : StoreState) (q : QuadKey) (order : Nat) : StoreState × Option Element :=
  let (_, s1) := getQuadKeyData s q
  let ib := indexBytes s1.disk q
  let db := dataBytes s1.disk q
  match entryAt ib order with
  | some (id, off) =>
      match decodeRecord db off id with
      | some e =>
          ( modifyHandle s1 q
              (fun h0 => { h0 with indexPos := order * 12 + 12
                                 , dataPos := off + recSize e })
          , some e )
      | none =>
          ( modifyHandle s1 q
              (fun h0 => { h0 with indexPos := order * 12 + 12, dataPos := off })
          , none )
  | none =>
      (modifyHandle s1 q (fun h0 => { h0 with indexPos := order * 12 }), none)

/-- Does the tile's level of detail fall within the query's range? -/
def inLod (r : LodRange) (q : QuadKey) : Bool :=
  decide (r.start ≤ q.levelOfDetail) && decide (q.levelOfDetail ≤ r.stop)

/-- One match-callback step of the boolean query (lines 142–145 composed
with `notify`): decode the element at the matched order, then pass it
through `ElementVisitorFilter`, which forwards it to the caller's visitor
only when it intersects the query's bounding box. -/
def queryStep (qry : Query) (q : QuadKey) (acc : StoreState × List Element)
    (o : Nat) : StoreState × List Element :=
  let (st', eo) := notifyOp acc.1 q o
  match eo with
  | some e =>
      (st', acc.2 ++ (if intersects e qry.boundingBox then [e] else []))
  | none => (st', acc.2)

/-- The same step delivering every candidate the decode step produces —
the stream `ElementVisitorFilter` receives, before the geometric test.
Spec-side definition used to state the filter-composition claim. -/
def queryStepRaw (q : QuadKey) (acc : StoreState × List Element)
    (o : Nat) : StoreState × List Element :=
  let (st', eo) := notifyOp acc.1 q o
  match eo with
  | some e => (st', acc.2 ++ [e])
  | none => (st', acc.2)

/-- Modelled from the spec: `BitmapIndex::search` evaluated over one tile —
the bitmaps are obtained through the `getBitmap` hook (lazy load), the
boolean query yields the ascending matching orders, and each order goes
through the match callback. -/
def searchQueryOnTile (s : StoreState) (qry : Query) (q : QuadKey) :
    StoreState × List Element :=
  let (h, s1) := getQuadKeyData s q
  let (h2, bmp, _) := getBitmapOp h (blobOf s1.disk q)
  let s2 := modifyHandle s1 q (fun _ => h2)
  (bmpMatches bmp qry).foldl (queryStep qry q) (s2, [])

/-- Per-tile evaluation delivering the unfiltered candidate stream. -/
def searchQueryOnTileRaw (s : StoreState) (qry : Query) (q : QuadKey) :
    StoreState × List Element :=
  let (h, s1) := getQuadKeyData s q
  let (h2, bmp, _) := getBitmapOp h (blobOf s1.disk q)
  let s2 := modifyHandle s1 q (fun _ => h2)
  (bmpMatches bmp qry).foldl (queryStepRaw q) (s2, [])

/-- One tile of the query: accumulate that tile's delivered elements. -/
def tileStep (qry : Query) (acc : StoreState × List Element)
    (q : QuadKey) : StoreState × List Element :=
  let (st', out) := searchQueryOnTile acc.1 qry q
  (st', acc.2 ++ out)

def tileStepRaw (qry : Query) (acc : StoreState × List Element)
    (q : QuadKey) : StoreState × List Element :=
  let (st', out) := searchQueryOnTileRaw acc.1 qry q
  (st', acc.2 ++ out)

/-- `search(Query, visitor, cancelToken)` (lines 139–146) together with the
spec-modelled tile selection of `BitmapIndex::search`: one per-tile
evaluation for every known tile whose level of detail falls in the query's
range.  The cancellation token is never consulted on this path. -/
def searchQuery (s : StoreState) (qry : Query) (_cancel : Nat → Bool) :
    StoreState × List Element :=
  let tiles := (s.disk.map (fun p => p.1)).filter (inLod qry.lodRange)
  tiles.foldl (tileStep qry) (s, [])

/-- The whole query delivering the unfiltered candidate stream (what the
bitmap query's decode step produces before the geometric filter). -/
def searchQueryRaw (s : StoreState) (qry : Query) :
    StoreState × List Element :=
  let tiles := (s.disk.map (fun p => p.1)).filter (inLod qry.lodRange)
  tiles.foldl (tileStepRaw qry) (s, [])

/-- `hasData` (lines 166–169): probe the tile's data file with a read-only
`ifstream`; `good()` holds exactly when the file exists.  The state is
returned unchanged — the probe does not go through the cache. -/
def hasDataOp (s : StoreState) (q : QuadKey) : StoreState × Bool :=
  (s, ((lookupTile s.disk q).bind TileFiles.dataF).isSome)

/-- Which of the three per-tile files an erase touches. -/
inductive FileKind where
  | dat
  | idf
  | bmp
deriving DecidableEq, Repr

/-- One file's fate under `QuadKeyData::erase` (lines 81–86): `std::remove`
succeeds only when the file exists and the file system cooperates (the
oracle `ok`); on failure the path is logged and the siblings are still
attempted. -/
def removeFile (f : Option α) (ok : Bool) : Option α × Bool :=
  match f with
  | none => (none, false)
  | some x => if ok then (none, true) else (some x, false)

/-- `erase(QuadKey)` (lines 171–178): resolve the handle (creating absent
files on a cache miss), close it, attempt to remove all three files —
collecting a log line per failing path — then clear the whole cache.
No error is surfaced to the caller. -/
def eraseTile (s : StoreState) (q : QuadKey) (ok : FileKind → Bool) :
    StoreState × List FileKind :=
  let (_, s1) := getQuadKeyData s q
  let tf := (lookupTile s1.disk q).getD { dataF := none, indexF := none, bitmapF := none }
  let (df, okD) := removeFile tf.dataF (ok .dat)
  let (xf, okI) := removeFile tf.indexF (ok .idf)
  let (bf, okB) := removeFile tf.bitmapF (ok .bmp)
  let log := (if okD then [] else [FileKind.dat]) ++
             (if okI then [] else [FileKind.idf]) ++
             (if okB then [] else [FileKind.bmp])
  ( { disk := setTile s1.disk q { dataF := df, indexF := xf, bitmapF := bf }
    , cache := [] }
  , log )

/-- `erase(BoundingBox, LodRange)` (lines 180–182): unconditionally throws
`std::domain_error` before touching any state. -/
def eraseBox (_s : StoreState) (_bbox : BoundingBox) (_range : LodRange) :
    Except String StoreState :=
  Except.error "Deletion by bounding box and lod range is not implemented."

/-- `flush` (lines 184–186): clear the resource cache; nothing else. -/
def flush (s : StoreState) : StoreState :=
  { disk := s.disk, cache := [] }

/-! ## Basic lemmas about the disk and cache maps -/

@[simp] theorem lookupTile_setTile_self (d : Disk) (q : QuadKey) (tf : TileFiles) :
    lookupTile (setTile d q tf) q = some tf := by
  induction d with
  | nil => simp [setTile, lookupTile]
  | cons p d ih =>
      by_cases h : p.1 = q
      · simp [setTile, lookupTile, h]
      · simp [setTile, lookupTile, h, ih]

theorem lookupTile_setTile_ne (d : Disk) (q q' : QuadKey) (tf : TileFiles)
    (h : q' ≠ q) : lookupTile (setTile d q tf) q' = lookupTile d q' := by
  have h' : q ≠ q' := Ne.symm h
  induction d with
  | nil => simp [setTile, lookupTile, h']
  | cons p d ih =>
      by_cases hp : p.1 = q
      · have hp' : ¬p.1 = q' := by rw [hp]; exact h'
        simp [setTile, lookupTile, hp, h', hp']
      · by_cases hp' : p.1 = q'
        · simp [setTile, lookupTile, hp, hp', h]
        · simp [setTile, lookupTile, hp, hp', ih]

@[simp] theorem cacheFind_cacheModify_self (c : Cache) (q : QuadKey) (f : Handle → Handle) :
    cacheFind (cacheModify c q f) q = (cacheFind c q).map f := by
  induction c with
  | nil => simp [cacheModify, cacheFind]
  | cons p c ih =>
      by_cases h : p.1 = q
      · simp [cacheModify, cacheFind, h]
      · simp [cacheModify, cacheFind, h, ih]

@[simp] theorem dataBytes_setLogs_self (d : Disk) (q : QuadKey) (db ib : List Nat) :
    dataBytes (setLogs d q db ib) q = db := by
  simp [dataBytes, setLogs]

@[simp] theorem indexBytes_setLogs_self (d : Disk) (q : QuadKey) (db ib : List Nat) :
    indexBytes (setLogs d q db ib) q = ib := by
  simp [indexBytes, setLogs]

@[simp] theorem blobOf_setLogs_self (d : Disk) (q : QuadKey) (db ib : List Nat) :
    blobOf (setLogs d q db ib) q = blobOf d q := by
  simp [blobOf, setLogs, lookupTile]
  cases lookupTile d q <;> rfl

/-- `openTile` never changes the observable bytes of any file: a missing
data or index file becomes an empty one, and `getD []` read both as `[]`. -/
theorem dataBytes_openTile (d : Disk) (q q' : QuadKey) :
    dataBytes (openTile d q).1 q' = dataBytes d q' := by
  by_cases h : q' = q
  · subst h
    unfold dataBytes openTile
    cases hl : lookupTile d q' <;> simp [hl]
  · simp [dataBytes, openTile, lookupTile_setTile_ne _ _ _ _ h]

theorem indexBytes_openTile (d : Disk) (q q' : QuadKey) :
    indexBytes (openTile d q).1 q' = indexBytes d q' := by
  by_cases h : q' = q
  · subst h
    unfold indexBytes openTile
    cases hl : lookupTile d q' <;> simp [hl]
  · simp [indexBytes, openTile, lookupTile_setTile_ne _ _ _ _ h]

theorem blobOf_openTile (d : Disk) (q q' : QuadKey) :
    blobOf (openTile d q).1 q' = blobOf d q' := by
  by_cases h : q' = q
  · subst h
    unfold blobOf openTile
    cases hl : lookupTile d q' <;> simp [hl]
  · simp [blobOf, openTile, lookupTile_setTile_ne _ _ _ _ h]

/-! ## Canonical state after a sequence of saves -/

/-- Total byte size of the data records of `es`. -/
def totalSize (es : List Element) : Nat := (es.map recSize).sum

/-- The data log holding the records of `es` in order. -/
def tileData (es : List Element) : List Nat := (es.map encodeRecord).flatten

/-- The index log holding one entry per element of `es`, offsets accumulated
from `off` (each truncated to 32 bits exactly as `store` truncates them). -/
def tileIndexAux : List Element → Nat → List Nat
  | [], _ => []
  | e :: r, off => encodeEntry e.id (off % 2 ^ 32) ++ tileIndexAux r (off + recSize e)

def tileIndex (es : List Element) : List Nat := tileIndexAux es 0

/-- The bitmap accumulated by `add` over the saves of `es`, orders counted
from `k` (each truncated to 32 bits exactly as `store` truncates them). -/
def bmpOfAux : Bitmap → Nat → List Element → Bitmap
  | b, _, [] => b
  | b, k, e :: r => bmpOfAux (bmpAdd b e.terms (k % 2 ^ 32)) (k + 1) r

def bmpOf (es : List Element) : Bitmap := bmpOfAux [] 0 es

/-- The handle of a tile holding exactly `es`, directly after a store. -/
def cleanHandle (es : List Element) : Handle :=
  { dataPos := (tileData es).length
  , indexPos := (tileIndex es).length
  , bitmap := bmpOf es }

/-- The engine state reached from the initial state by saving the non-empty
sequence `es` under `q`: one tile on disk, one cached handle with both
stream positions at end of file. -/
def cleanState (q : QuadKey) (es : List Element) : StoreState :=
  { disk := [(q, { dataF := some (tileData es), indexF := some (tileIndex es)
                 , bitmapF := some (bmpOf es) })]
  , cache := [(q, cleanHandle es)] }

@[simp] theorem tileData_nil : tileData [] = [] := rfl

theorem tileData_append (es fs : List Element) :
    tileData (es ++ fs) = tileData es ++ tileData fs := by
  simp [tileData]

@[simp] theorem tileData_length (es : List Element) :
    (tileData es).length = totalSize es := by
  induction es with
  | nil => rfl
  | cons e r ih => simp [tileData, totalSize] at ih ⊢; omega

theorem totalSize_append (es fs : List Element) :
    totalSize (es ++ fs) = totalSize es + totalSize fs := by
  simp [totalSize]

theorem tileIndexAux_append (es : List Element) (e : Element) :
    ∀ off, tileIndexAux (es ++ [e]) off =
      tileIndexAux es off ++ encodeEntry e.id ((off + totalSize es) % 2 ^ 32) := by
  induction es with
  | nil => intro off; simp [tileIndexAux, totalSize]
  | cons f r ih =>
      intro off
      have harith : off + totalSize (f :: r) = off + recSize f + totalSize r := by
        simp only [totalSize, List.map_cons, List.sum_cons]
        omega
      simp only [List.cons_append, tileIndexAux, List.append_eq, ih,
        List.append_assoc, harith]

@[simp] theorem tileIndexAux_length (es : List Element) :
    ∀ off, (tileIndexAux es off).length = 12 * es.length := by
  induction es with
  | nil => intro off; rfl
  | cons e r ih => intro off; simp [tileIndexAux, ih]; omega

@[simp] theorem tileIndex_length (es : List Element) :
    (tileIndex es).length = 12 * es.length := tileIndexAux_length es 0

theorem bmpOfAux_append (es : List Element) (e : Element) :
    ∀ b k, bmpOfAux b k (es ++ [e]) =
      bmpAdd (bmpOfAux b k es) e.terms ((k + es.length) % 2 ^ 32) := by
  induction es with
  | nil => intro b k; simp [bmpOfAux]
  | cons f r ih =>
      intro b k
      have harith : k + (r.length + 1) = k + 1 + r.length := by omega
      simp only [List.cons_append, bmpOfAux, List.append_eq, ih,
        List.length_cons, harith]

theorem bmpSet_length_le (b : Bitmap) (t : Nat) (v : List Bool) :
    b.length ≤ (bmpSet b t v).length := by
  induction b with
  | nil => simp [bmpSet]
  | cons p r ih =>
      by_cases h : p.1 = t
      · simp [bmpSet, h]
      · simp only [bmpSet, if_neg h, List.length_cons]
        omega

theorem bmpAdd_length_le (ts : List Nat) :
    ∀ (b : Bitmap) (o : Nat), b.length ≤ (bmpAdd b ts o).length := by
  induction ts with
  | nil => intro b o; simp [bmpAdd]
  | cons t ts ih =>
      intro b o
      have h1 := bmpSet_length_le b t (setBit (bmpVec b t) o)
      have h2 := ih (bmpSet b t (setBit (bmpVec b t) o)) o
      simpa [bmpAdd] using le_trans h1 (by simpa [bmpAdd] using h2)

theorem bmpAdd_eq_nil (b : Bitmap) (ts : List Nat) (o : Nat)
    (h : bmpAdd b ts o = []) : b = [] := by
  have := bmpAdd_length_le ts b o
  rw [h] at this
  simpa using List.length_eq_zero.mp (Nat.le_zero.mp this)

/-- When the handle's bitmap can only be empty if the blob is empty too,
`getBitmap` behaves as the identity: it returns the in-memory bitmap (the
reload in the empty case reloads the selfsame empty value). -/
theorem getBitmapOp_consistent (h : Handle) (b : Bitmap)
    (hb : h.bitmap = [] → b = []) :
    getBitmapOp h (some b) = (h, h.bitmap, h.bitmap.isEmpty) := by
  obtain ⟨dp, ip, bm⟩ := h
  cases hbm : bm with
  | nil => simp_all [getBitmapOp]
  | cons x xs => simp [getBitmapOp, hbm]

@[simp] theorem tileData_singleton (e : Element) : tileData [e] = encodeRecord e := by
  simp [tileData]

@[simp] theorem cacheFind_singleton (q : QuadKey) (h : Handle) :
    cacheFind [(q, h)] q = some h := by simp [cacheFind]

@[simp] theorem lookupTile_singleton (q : QuadKey) (tf : TileFiles) :
    lookupTile [(q, tf)] q = some tf := by simp [lookupTile]

theorem getQuadKeyData_cleanState (q : QuadKey) (es : List Element) :
    getQuadKeyData (cleanState q es) q = (cleanHandle es, cleanState q es) := by
  simp [getQuadKeyData, cleanState, cacheFind, cachePromote, cacheDrop]

@[simp] theorem setTile_singleton (q : QuadKey) (tf0 tf1 : TileFiles) :
    setTile [(q, tf0)] q tf1 = [(q, tf1)] := by simp [setTile]

@[simp] theorem cacheModify_singleton (q : QuadKey) (h : Handle) (f : Handle → Handle) :
    cacheModify [(q, h)] q f = [(q, f h)] := by simp [cacheModify]

@[simp] theorem cacheDrop_singleton (q : QuadKey) (h : Handle) :
    cacheDrop [(q, h)] q = [] := by simp [cacheDrop]

theorem bmpSet_ne_nil (b : Bitmap) (t : Nat) (v : List Bool) :
    bmpSet b t v ≠ [] := by
  cases b with
  | nil => simp [bmpSet]
  | cons p r =>
      by_cases h : p.1 = t <;> simp [bmpSet, h]

theorem bmpAdd_ne_nil_of_terms (b : Bitmap) (t : Nat) (ts : List Nat) (o : Nat) :
    bmpAdd b (t :: ts) o ≠ [] := by
  intro hcon
  have hb := bmpAdd_eq_nil _ ts o (by simpa [bmpAdd] using hcon)
  exact bmpSet_ne_nil b t _ hb

/-- `getBitmap` on a handle whose bitmap agrees with the on-disk blob is
the identity (the empty-case reload loads the selfsame empty value). -/
theorem getBitmapOp_self (dp ip : Nat) (b : Bitmap) :
    getBitmapOp { dataPos := dp, indexPos := ip, bitmap := b } (some b) =
      ({ dataPos := dp, indexPos := ip, bitmap := b }, b, b.isEmpty) :=
  getBitmapOp_consistent _ _ (fun h => h)

/-- `getBitmap` directly after `add`: the freshly updated in-memory bitmap
can only be empty when the blob it grew from was empty, so no reload
changes anything. -/
theorem getBitmapOp_after_add (dp ip : Nat) (b : Bitmap) (ts : List Nat) (o : Nat) :
    getBitmapOp { dataPos := dp, indexPos := ip, bitmap := bmpAdd b ts o } (some b) =
      ({ dataPos := dp, indexPos := ip, bitmap := bmpAdd b ts o }
      , bmpAdd b ts o, (bmpAdd b ts o).isEmpty) :=
  getBitmapOp_consistent _ _ (fun h => bmpAdd_eq_nil _ _ _ h)

/-- The store step preserves the canonical shape: storing one more element
into the canonical state of `es` yields the canonical state of `es ++ [e]`,
assigning insertion order `es.length` (truncated to 32 bits). -/
theorem storeE_cleanState (q : QuadKey) (es : List Element) (e : Element) :
    storeE (cleanState q es) e q = (cleanState q (es ++ [e]), es.length % 2 ^ 32) := by
  have hdiv : 12 * es.length / 12 = es.length := by omega
  simp only [storeE, getQuadKeyData_cleanState, cleanState, cleanHandle,
    tileData_length, tileIndex_length, hdiv, dataBytes, indexBytes, blobOf,
    lookupTile_singleton, Option.bind_some, Option.getD_some, setLogs, setTile,
    setBlob, modifyHandle, cacheModify, getQuadKeyData, cacheFind,
    cachePromote, cacheDrop, tileIndex, getBitmapOp_self, getBitmapOp_after_add]
  simp [tileData_append, tileIndexAux_append, bmpOfAux_append, bmpOf,
    Nat.zero_add, totalSize, getBitmapOp_self, getBitmapOp_after_add]

/-- `getBitmap` when the bitmap file does not exist: a failed read leaves
the in-memory bitmap as it was (loading `[]` when it was empty). -/
theorem getBitmapOp_none (h : Handle) :
    getBitmapOp h none = (h, h.bitmap, h.bitmap.isEmpty) := by
  obtain ⟨dp, ip, bm⟩ := h
  cases bm with
  | nil => simp [getBitmapOp]
  | cons x xs => simp [getBitmapOp]

/-- The first store from the empty state creates the tile and produces the
canonical one-element state, assigning insertion order `0`. -/
theorem storeE_initState (q : QuadKey) (e : Element) :
    storeE initState e q = (cleanState q [e], 0) := by
  simp [storeE, initState, getQuadKeyData, cacheFind, openTile, lookupTile,
    cachePut, cacheCapacity, dataBytes, indexBytes, blobOf, setLogs, setTile,
    setBlob, modifyHandle, cacheModify, cacheDrop, cachePromote,
    getBitmapOp_none, cleanState, cleanHandle, tileData, tileIndex,
    tileIndexAux, bmpOf, bmpOfAux, totalSize]

/-- Folding further stores over a canonical state stays canonical. -/
theorem foldl_store_cleanState (q : QuadKey) :
    ∀ (rest done : List Element),
      rest.foldl (fun s e => store s e q) (cleanState q done) =
        cleanState q (done ++ rest) := by
  intro rest
  induction rest with
  | nil => intro done; simp
  | cons e r ih =>
      intro done
      have hstep : store (cleanState q done) e q = cleanState q (done ++ [e]) := by
        simp [store, storeE_cleanState]
      rw [List.foldl_cons, hstep, ih (done ++ [e]), List.append_assoc]
      rfl

/-- Saving `e :: r` from the empty state produces the canonical state. -/
theorem saveAll_cleanState (q : QuadKey) (e : Element) (r : List Element) :
    (e :: r).foldl (fun s x => store s x q) initState = cleanState q (e :: r) := by
  have h0 : store initState e q = cleanState q [e] := by
    simp [store, storeE_initState]
  simp only [List.foldl_cons, h0, foldl_store_cleanState]
  rfl

/-! ## Decoding what was encoded -/

theorem chunk_drop (w v : Nat) (t : List Nat) : (toBytesLE w v ++ t).drop w = t := by
  have h := List.drop_left (toBytesLE w v) t
  rwa [toBytesLE_length] at h

theorem chunk_take (w v : Nat) (t : List Nat) :
    (toBytesLE w v ++ t).take w = toBytesLE w v := by
  have h := List.take_left (toBytesLE w v) t
  rwa [toBytesLE_length] at h

theorem chunk_read (w v : Nat) (t : List Nat) :
    fromBytesLE ((toBytesLE w v ++ t).take w) = v % 256 ^ w := by
  rw [chunk_take, fromBytesLE_toBytesLE]

theorem drop_add (l : List Nat) (m n : Nat) : l.drop (m + n) = (l.drop m).drop n := by
  rw [List.drop_drop, Nat.add_comm]

@[simp] theorem termBytes_length (ts : List Nat) :
    ((ts.map (toBytesLE 4)).flatten).length = 4 * ts.length := by
  induction ts with
  | nil => rfl
  | cons t r ih => simp [ih]; omega

theorem termBytes_drop (ts : List Nat) :
    ∀ (i : Nat) (tail : List Nat), i < ts.length →
      ((ts.map (toBytesLE 4)).flatten ++ tail).drop (4 * i) =
        toBytesLE 4 (ts.getD i 0) ++
          (((ts.drop (i + 1)).map (toBytesLE 4)).flatten ++ tail) := by
  induction ts with
  | nil => intro i tail h; simp at h
  | cons t r ih =>
      intro i tail h
      cases i with
      | zero => simp [List.append_assoc]
      | succ i =>
          have h4 : 4 * (i + 1) = 4 + 4 * i := by omega
          simp only [List.map_cons, List.flatten_cons, List.append_assoc, h4,
            drop_add, chunk_drop]
          have hi : i < r.length := by simpa using h
          simpa using ih i tail hi

theorem range_map_getD (l : List Nat) :
    (List.range l.length).map (fun i => l.getD i 0) = l := by
  induction l with
  | nil => rfl
  | cons x r ih =>
      rw [List.length_cons, List.range_succ_eq_map]
      simp only [List.map_cons, List.getD_cons_zero, List.map_map]
      have : ((fun i => (x :: r).getD i 0) ∘ Nat.succ) = fun i => r.getD i 0 := by
        funext i; simp [List.getD_cons_succ]
      rw [this, ih]

/-- Decoding at the start of a record reconstructs the element that was
encoded there (with the identifier supplied by the index entry), provided
every numeric field fits its fixed width. -/
theorem decodeRecord_encode (pre rest : List Nat) (e : Element) (id : Nat)
    (hbox1 : e.box.minX < 2 ^ 32) (hbox2 : e.box.minY < 2 ^ 32)
    (hbox3 : e.box.maxX < 2 ^ 32) (hbox4 : e.box.maxY < 2 ^ 32)
    (hterms : ∀ t ∈ e.terms, t < 2 ^ 32)
    (hk : e.terms.length < 2 ^ 32) (hp : e.payload.length < 2 ^ 32) :
    decodeRecord (pre ++ (encodeRecord e ++ rest)) pre.length id =
      some { e with id := id } := by
  obtain ⟨id0, ⟨bx1, bx2, bx3, bx4⟩, ts, pl⟩ := e
  simp only at hbox1 hbox2 hbox3 hbox4 hterms hk hp
  have h256 : (256 : Nat) ^ 4 = 2 ^ 32 := by norm_num
  have hs : (pre ++ (encodeRecord ⟨id0, ⟨bx1, bx2, bx3, bx4⟩, ts, pl⟩ ++ rest)).drop pre.length
      = toBytesLE 4 bx1 ++ (toBytesLE 4 bx2 ++ (toBytesLE 4 bx3 ++ (toBytesLE 4 bx4 ++
        (toBytesLE 4 ts.length ++ ((ts.map (toBytesLE 4)).flatten ++
        (toBytesLE 4 pl.length ++ (pl ++ rest))))))) := by
    rw [List.drop_left]
    simp [encodeRecord, List.append_assoc]
  set s := (pre ++ (encodeRecord ⟨id0, ⟨bx1, bx2, bx3, bx4⟩, ts, pl⟩ ++ rest)).drop pre.length
    with hsdef
  have h4 : s.drop 4 = toBytesLE 4 bx2 ++ (toBytesLE 4 bx3 ++ (toBytesLE 4 bx4 ++
      (toBytesLE 4 ts.length ++ ((ts.map (toBytesLE 4)).flatten ++
      (toBytesLE 4 pl.length ++ (pl ++ rest)))))) := by
    rw [hs, chunk_drop]
  have h8 : s.drop 8 = toBytesLE 4 bx3 ++ (toBytesLE 4 bx4 ++
      (toBytesLE 4 ts.length ++ ((ts.map (toBytesLE 4)).flatten ++
      (toBytesLE 4 pl.length ++ (pl ++ rest))))) := by
    rw [show (8 : Nat) = 4 + 4 from rfl, drop_add, h4, chunk_drop]
  have h12 : s.drop 12 = toBytesLE 4 bx4 ++
      (toBytesLE 4 ts.length ++ ((ts.map (toBytesLE 4)).flatten ++
      (toBytesLE 4 pl.length ++ (pl ++ rest)))) := by
    rw [show (12 : Nat) = 8 + 4 from rfl, drop_add, h8, chunk_drop]
  have h16 : s.drop 16 = toBytesLE 4 ts.length ++ ((ts.map (toBytesLE 4)).flatten ++
      (toBytesLE 4 pl.length ++ (pl ++ rest))) := by
    rw [show (16 : Nat) = 12 + 4 from rfl, drop_add, h12, chunk_drop]
  have h20 : s.drop 20 = (ts.map (toBytesLE 4)).flatten ++
      (toBytesLE 4 pl.length ++ (pl ++ rest)) := by
    rw [show (20 : Nat) = 16 + 4 from rfl, drop_add, h16, chunk_drop]
  have hkk : fromBytesLE ((s.drop 16).take 4) = ts.length := by
    rw [h16, chunk_read, h256, Nat.mod_eq_of_lt hk]
  have h20k : s.drop (20 + 4 * ts.length) =
      toBytesLE 4 pl.length ++ (pl ++ rest) := by
    rw [drop_add, h20, ← termBytes_length ts, List.drop_left]
  have hpp : fromBytesLE ((s.drop (20 + 4 * ts.length)).take 4) = pl.length := by
    rw [h20k, chunk_read, h256, Nat.mod_eq_of_lt hp]
  have h24k : s.drop (24 + 4 * ts.length) = pl ++ rest := by
    rw [show 24 + 4 * ts.length = 20 + 4 * ts.length + 4 by omega, drop_add,
      h20k, chunk_drop]
  have hslen : s.length = 24 + 4 * ts.length + pl.length + rest.length := by
    rw [hs]
    simp only [List.length_append, toBytesLE_length, termBytes_length,
      List.length_drop]
    omega
  have htermsEq : (List.range ts.length).map
      (fun i => fromBytesLE ((s.drop (20 + 4 * i)).take 4)) = ts := by
    have hcong : ∀ i ∈ List.range ts.length,
        fromBytesLE ((s.drop (20 + 4 * i)).take 4) = ts.getD i 0 := by
      intro i hi
      have hi' : i < ts.length := List.mem_range.mp hi
      have hd : s.drop (20 + 4 * i) = toBytesLE 4 (ts.getD i 0) ++
          (((ts.drop (i + 1)).map (toBytesLE 4)).flatten ++
            (toBytesLE 4 pl.length ++ (pl ++ rest))) := by
        rw [drop_add, h20, termBytes_drop ts i _ hi']
      have hmem : ts.getD i 0 ∈ ts := by
        have : ts.getD i 0 = ts[i] := by
          simp [List.getD_eq_getElem?_getD, List.getElem?_eq_getElem hi']
        rw [this]
        exact List.getElem_mem _
      rw [hd, chunk_read, h256, Nat.mod_eq_of_lt (hterms _ hmem)]
    calc (List.range ts.length).map (fun i => fromBytesLE ((s.drop (20 + 4 * i)).take 4))
        = (List.range ts.length).map (fun i => ts.getD i 0) :=
          List.map_congr_left hcong
      _ = ts := range_map_getD ts
  simp only [decodeRecord]
  rw [← hsdef]
  rw [hkk, hpp]
  rw [if_pos (by omega : 24 + 4 * ts.length + pl.length ≤ s.length)]
  have hminX : fromBytesLE (s.take 4) = bx1 := by
    rw [hs, chunk_read, h256, Nat.mod_eq_of_lt hbox1]
  have hminY : fromBytesLE ((s.drop 4).take 4) = bx2 := by
    rw [h4, chunk_read, h256, Nat.mod_eq_of_lt hbox2]
  have hmaxX : fromBytesLE ((s.drop 8).take 4) = bx3 := by
    rw [h8, chunk_read, h256, Nat.mod_eq_of_lt hbox3]
  have hmaxY : fromBytesLE ((s.drop 12).take 4) = bx4 := by
    rw [h12, chunk_read, h256, Nat.mod_eq_of_lt hbox4]
  have hpay : (s.drop (24 + 4 * ts.length)).take pl.length = pl := by
    rw [h24k, List.take_left]
  rw [hminX, hminY, hmaxX, hmaxY, htermsEq, hpay]

instance : Inhabited Element := ⟨⟨0, ⟨0, 0, 0, 0⟩, [], []⟩⟩

theorem getD_eq_getElem {α : Type} [Inhabited α] (l : List α) (i : Nat)
    (h : i < l.length) : l.getD i default = l[i] := by
  simp [List.getD_eq_getElem?_getD, List.getElem?_eq_getElem h]

theorem getD_mem {α : Type} [Inhabited α] (l : List α) (i : Nat)
    (h : i < l.length) : l.getD i default ∈ l := by
  rw [getD_eq_getElem l i h]
  exact List.getElem_mem _

theorem entryAt_cons12 (blk rest : List Nat) (hb : blk.length = 12) (i : Nat) :
    entryAt (blk ++ rest) (i + 1) = entryAt rest i := by
  unfold entryAt
  have h12 : 12 * (i + 1) = blk.length + 12 * i := by omega
  rw [h12, drop_add, List.drop_left]

/-- Reading the `i`-th entry of the canonical index log. -/
theorem entryAt_tileIndexAux (es : List Element) :
    ∀ (i off : Nat), i < es.length →
      entryAt (tileIndexAux es off) i =
        some ((es.getD i default).id % 2 ^ 64,
              (off + totalSize (es.take i)) % 2 ^ 32) := by
  induction es with
  | nil => intro i off h; simp at h
  | cons e r ih =>
      intro i off h
      cases i with
      | zero =>
          have h264 : (256 : Nat) ^ 8 = 2 ^ 64 := by norm_num
          have h232 : (256 : Nat) ^ 4 = 2 ^ 32 := by norm_num
          unfold entryAt tileIndexAux
          simp only [Nat.mul_zero, List.drop_zero, encodeEntry, List.append_assoc]
          have htk : ((toBytesLE 8 e.id ++ (toBytesLE 4 (off % 2 ^ 32) ++
              tileIndexAux r (off + recSize e))).take 12) =
              toBytesLE 8 e.id ++ toBytesLE 4 (off % 2 ^ 32) := by
            rw [show (12 : Nat) = 8 + 4 from rfl, List.take_append_eq_append_take]
            rw [toBytesLE_length, show 8 + 4 - 8 = 4 from rfl]
            rw [List.take_of_length_le (by simp), chunk_take]
          rw [htk]
          have hlen : (toBytesLE 8 e.id ++ toBytesLE 4 (off % 2 ^ 32)).length = 12 := by
            simp
          rw [if_pos hlen, chunk_take, chunk_drop, fromBytesLE_toBytesLE,
            fromBytesLE_toBytesLE, h264, h232]
          have hmm : off % 2 ^ 32 % 2 ^ 32 = off % 2 ^ 32 :=
            Nat.mod_mod_of_dvd off dvd_rfl
          simp [hmm, totalSize]
      | succ i =>
          have hb : (encodeEntry e.id (off % 2 ^ 32)).length = 12 := encodeEntry_length _ _
          have hlt : i < r.length := by simpa using h
          unfold tileIndexAux
          rw [entryAt_cons12 _ _ hb i, ih i _ hlt]
          have harith : off + recSize e + totalSize (r.take i)
              = off + totalSize ((e :: r).take (i + 1)) := by
            simp only [List.take_succ_cons, totalSize, List.map_cons, List.sum_cons]
            omega
          simp only [List.getD_cons_succ, harith]

theorem totalSize_take_le (es : List Element) (i : Nat) :
    totalSize (es.take i) ≤ totalSize es := by
  conv_rhs => rw [← List.take_append_drop i es]
  rw [totalSize_append]
  omega

theorem totalSize_take_succ (es : List Element) (i : Nat) (h : i < es.length) :
    totalSize (es.take (i + 1)) =
      totalSize (es.take i) + recSize (es.getD i default) := by
  rw [List.take_succ, totalSize_append, getD_eq_getElem es i h,
    List.getElem?_eq_getElem h]
  simp [totalSize]

theorem tileData_decompose (es : List Element) (i : Nat) (h : i < es.length) :
    tileData es = tileData (es.take i) ++
      (encodeRecord (es.getD i default) ++ tileData (es.drop (i + 1))) := by
  have hsplit : es = es.take i ++ (es.getD i default :: es.drop (i + 1)) := by
    rw [getD_eq_getElem es i h]
    conv_lhs => rw [← List.take_append_drop i es]
    rw [List.drop_eq_getElem_cons h]
  conv_lhs => rw [hsplit]
  rw [tileData_append]
  simp [tileData]

/-- The scan loop, run without cancellation over the canonical logs of
`full` starting at entry `i`, visits exactly the remaining elements,
checks the token once per entry, and leaves the data position at the end
of the data log. -/
theorem scanLoop_clean (full : List Element)
    (hid : ∀ e ∈ full, e.id < 2 ^ 64)
    (hbox : ∀ e ∈ full, e.box.minX < 2 ^ 32 ∧ e.box.minY < 2 ^ 32 ∧
            e.box.maxX < 2 ^ 32 ∧ e.box.maxY < 2 ^ 32)
    (hterms : ∀ e ∈ full, ∀ t ∈ e.terms, t < 2 ^ 32)
    (hkb : ∀ e ∈ full, e.terms.length < 2 ^ 32)
    (hpb : ∀ e ∈ full, e.payload.length < 2 ^ 32)
    (htot : totalSize full < 2 ^ 32) :
    ∀ (n i dp : Nat), i + n = full.length →
      scanLoop (tileIndex full) (tileData full) (fun _ => false) i n dp =
        (full.drop i, n, if n = 0 then dp else totalSize full) := by
  intro n
  induction n with
  | zero =>
      intro i dp h
      simp only [scanLoop]
      rw [List.drop_of_length_le (by omega : full.length ≤ i)]
      simp
  | succ n ih =>
      intro i dp h
      have hi : i < full.length := by omega
      have hmem : full.getD i default ∈ full := getD_mem full i hi
      have hent : entryAt (tileIndex full) i =
          some ((full.getD i default).id, totalSize (full.take i)) := by
        rw [tileIndex, entryAt_tileIndexAux full i 0 hi]
        rw [Nat.mod_eq_of_lt (hid _ hmem), Nat.zero_add,
          Nat.mod_eq_of_lt (lt_of_le_of_lt (totalSize_take_le full i) htot)]
      have hdec : decodeRecord (tileData full) (totalSize (full.take i))
          (full.getD i default).id = some (full.getD i default) := by
        have hlen : totalSize (full.take i) = (tileData (full.take i)).length := by
          simp
        rw [tileData_decompose full i hi, hlen]
        obtain ⟨hb1, hb2, hb3, hb4⟩ := hbox _ hmem
        have hres := decodeRecord_encode (tileData (full.take i))
          (tileData (full.drop (i + 1))) (full.getD i default)
          (full.getD i default).id hb1 hb2 hb3 hb4 (hterms _ hmem)
          (hkb _ hmem) (hpb _ hmem)
        simpa using hres
      have hdrop : full.drop i = full.getD i default :: full.drop (i + 1) := by
        rw [getD_eq_getElem full i hi]
        exact List.drop_eq_getElem_cons hi
      have hdpn : totalSize (full.take i) + recSize (full.getD i default)
          = totalSize (full.take (i + 1)) := (totalSize_take_succ full i hi).symm
      simp only [scanLoop, hent, hdec, Bool.false_eq_true, if_false]
      rw [hdpn, ih (i + 1) (totalSize (full.take (i + 1))) (by omega), hdrop]
      by_cases hn : n = 0
      · subst hn
        have hiall : i + 1 = full.length := by omega
        simp [hiall]
      · simp [hn]

/-! ## C1: round trip and insertion order -/

/-- C1: for every sequence of elements saved in order under tile `T`
(starting from the empty store, with every numeric field inside its fixed
width and the documented 32-bit tile-size limits respected), a full tile
scan delivers exactly those elements — identical identifier, geometry,
terms and payload — in exactly the order they were saved.  The
single-element round trip is the instance `es = [E]`. -/
theorem save_search_round_trip (es : List Element) (q : QuadKey)
    (hid : ∀ e ∈ es, e.id < 2 ^ 64)
    (hbox : ∀ e ∈ es, e.box.minX < 2 ^ 32 ∧ e.box.minY < 2 ^ 32 ∧
            e.box.maxX < 2 ^ 32 ∧ e.box.maxY < 2 ^ 32)
    (hterms : ∀ e ∈ es, ∀ t ∈ e.terms, t < 2 ^ 32)
    (hkb : ∀ e ∈ es, e.terms.length < 2 ^ 32)
    (hpb : ∀ e ∈ es, e.payload.length < 2 ^ 32)
    (hlen : es.length < 2 ^ 32)
    (htot : totalSize es < 2 ^ 32) :
    (searchTile (es.foldl (fun s e => store s e q) initState) q
      (fun _ => false)).2.1 = es := by
  cases es with
  | nil =>
      simp [searchTile, getQuadKeyData, initState, cacheFind, openTile,
        lookupTile, cachePut, cacheCapacity, scanLoop, dataBytes, indexBytes,
        setTile, modifyHandle]
  | cons e r =>
      rw [saveAll_cleanState]
      simp only [searchTile, getQuadKeyData_cleanState]
      simp only [cleanState, cleanHandle, dataBytes, indexBytes,
        lookupTile_singleton, Option.some_bind, Option.getD_some,
        tileData_length, tileIndex_length]
      have hdiv : 12 * (e :: r).length / 12 % 2 ^ 32 = (e :: r).length := by
        have h1 : 12 * (e :: r).length / 12 = (e :: r).length := by omega
        rw [h1, Nat.mod_eq_of_lt hlen]
      rw [hdiv, scanLoop_clean (e :: r) hid hbox hterms hkb hpb htot
        ((e :: r).length) 0 (totalSize (e :: r)) (by omega)]
      simp

def qW : QuadKey := ⟨1, 0, 0⟩

def eW1 : Element := { id := 1, box := ⟨0, 0, 1, 1⟩, terms := [7], payload := [10] }

def eW2 : Element := { id := 2, box := ⟨2, 2, 3, 3⟩, terms := [8], payload := [11, 12] }

/-- Witness for C1: two concrete elements stored under a concrete tile come
back in order. -/
theorem save_search_round_trip_witness :
    (searchTile ([eW1, eW2].foldl (fun s e => store s e qW) initState) qW
      (fun _ => false)).2.1 = [eW1, eW2] :=
  save_search_round_trip [eW1, eW2] qW (by decide) (by decide) (by decide)
    (by decide) (by decide) (by decide) (by decide)

/-! ## Scan behavior under cancellation -/

/-- What iteration `i` of a scan of tile `q` would deliver, as a function
of the on-disk logs alone (the seeks in the loop are absolute). -/
def visitAt (d : Disk) (q : QuadKey) (i : Nat) : Option Element :=
  (entryAt (indexBytes d q) i).bind fun pr => decodeRecord (dataBytes d q) pr.2 pr.1

/-- The elements the first `n` scan iterations deliver. -/
def scanVisits (d : Disk) (q : QuadKey) (n : Nat) : List Element :=
  (List.range n).filterMap (visitAt d q)

/-- The iteration budget `search(QuadKey)` computes from the index stream's
current `tellg()` (line 152). -/
def scanCount (s : StoreState) (q : QuadKey) : Nat :=
  ((getQuadKeyData s q).1.indexPos / 12) % 2 ^ 32

theorem getQuadKeyData_fst (s : StoreState) (q : QuadKey) :
    (getQuadKeyData s q).1 = (cacheFind s.cache q).getD (openTile s.disk q).2 := by
  rcases hop : openTile s.disk q with ⟨d', hh⟩
  cases hf : cacheFind s.cache q <;> simp [getQuadKeyData, hf, hop]

theorem indexBytes_getQuadKeyData (s : StoreState) (q q' : QuadKey) :
    indexBytes ((getQuadKeyData s q).2).disk q' = indexBytes s.disk q' := by
  rcases hop : openTile s.disk q with ⟨d', hh⟩
  have hd : d' = (openTile s.disk q).1 := by rw [hop]
  cases hf : cacheFind s.cache q
  · simp only [getQuadKeyData, hf, hop]
    rw [hd, indexBytes_openTile]
  · simp [getQuadKeyData, hf]

theorem dataBytes_getQuadKeyData (s : StoreState) (q q' : QuadKey) :
    dataBytes ((getQuadKeyData s q).2).disk q' = dataBytes s.disk q' := by
  rcases hop : openTile s.disk q with ⟨d', hh⟩
  have hd : d' = (openTile s.disk q).1 := by rw [hop]
  cases hf : cacheFind s.cache q
  · simp only [getQuadKeyData, hf, hop]
    rw [hd, dataBytes_openTile]
  · simp [getQuadKeyData, hf]

theorem blobOf_getQuadKeyData (s : StoreState) (q q' : QuadKey) :
    blobOf ((getQuadKeyData s q).2).disk q' = blobOf s.disk q' := by
  rcases hop : openTile s.disk q with ⟨d', hh⟩
  have hd : d' = (openTile s.disk q).1 := by rw [hop]
  cases hf : cacheFind s.cache q
  · simp only [getQuadKeyData, hf, hop]
    rw [hd, blobOf_openTile]
  · simp [getQuadKeyData, hf]

/-- A full-tile scan reduces to the pure scan loop over the tile's logs. -/
theorem searchTile_visits (s : StoreState) (q : QuadKey) (cancel : Nat → Bool) :
    (searchTile s q cancel).2.1 =
      (scanLoop (indexBytes s.disk q) (dataBytes s.disk q) cancel 0
        (scanCount s q) ((getQuadKeyData s q).1.dataPos)).1 ∧
    (searchTile s q cancel).2.2 =
      (scanLoop (indexBytes s.disk q) (dataBytes s.disk q) cancel 0
        (scanCount s q) ((getQuadKeyData s q).1.dataPos)).2.1 := by
  rcases hg : getQuadKeyData s q with ⟨h, s1⟩
  have h1 : (getQuadKeyData s q).1 = h := by rw [hg]
  have h2 : (getQuadKeyData s q).2 = s1 := by rw [hg]
  have hib : indexBytes s1.disk q = indexBytes s.disk q := by
    rw [← h2, indexBytes_getQuadKeyData]
  have hdb : dataBytes s1.disk q = dataBytes s.disk q := by
    rw [← h2, dataBytes_getQuadKeyData]
  have hsc : scanCount s q = h.indexPos / 12 % 2 ^ 32 := by
    rw [scanCount, h1]
  rcases hloop : scanLoop (indexBytes s.disk q) (dataBytes s.disk q) cancel 0
      (scanCount s q) h.dataPos with ⟨vis, checks, dp'⟩
  simp only [searchTile, hg, hib, hdb, ← hsc, hloop, h1]
  exact ⟨trivial, trivial⟩

/-- The scan loop with a token that stays uncancelled for its whole
budget: every iteration checks once and delivers its decoded entry. -/
theorem scanLoop_noCancel (ib db : List Nat) (cancel : Nat → Bool) :
    ∀ (fuel i dp : Nat), (∀ t, i ≤ t → t < i + fuel → cancel t = false) →
      (scanLoop ib db cancel i fuel dp).1 =
        (List.range' i fuel).filterMap
          (fun t => (entryAt ib t).bind fun pr => decodeRecord db pr.2 pr.1) ∧
      (scanLoop ib db cancel i fuel dp).2.1 = fuel := by
  intro fuel
  induction fuel with
  | zero => intro i dp hc; simp [scanLoop]
  | succ n ih =>
      intro i dp hc
      have hci : cancel i = false := hc i le_rfl (by omega)
      rw [List.range'_succ]
      cases hent : entryAt ib i with
      | none =>
          have hrec := ih (i + 1) dp (fun t h1 h2 => hc t (by omega) (by omega))
          simp [scanLoop, hci, hent, hrec.1, hrec.2]
      | some pr =>
          obtain ⟨id, off⟩ := pr
          cases hdec : decodeRecord db off id with
          | none =>
              have hrec := ih (i + 1) off (fun t h1 h2 => hc t (by omega) (by omega))
              simp [scanLoop, hci, hent, hdec, hrec.1, hrec.2]
          | some e =>
              have hrec := ih (i + 1) (off + recSize e)
                (fun t h1 h2 => hc t (by omega) (by omega))
              simp [scanLoop, hci, hent, hdec, hrec.1, hrec.2]

/-- The scan loop when the token turns cancelled at check `j` inside the
budget: the loop performs `j - i + 1` checks, delivers only the entries
before `j`, and visits nothing further. -/
theorem scanLoop_cancelAt (ib db : List Nat) (cancel : Nat → Bool) (j : Nat)
    (hj : cancel j = true) :
    ∀ (fuel i dp : Nat), i ≤ j → j < i + fuel →
      (∀ t, i ≤ t → t < j → cancel t = false) →
      (scanLoop ib db cancel i fuel dp).1 =
        (List.range' i (j - i)).filterMap
          (fun t => (entryAt ib t).bind fun pr => decodeRecord db pr.2 pr.1) ∧
      (scanLoop ib db cancel i fuel dp).2.1 = (j - i) + 1 := by
  intro fuel
  induction fuel with
  | zero => intro i dp h1 h2 hc; omega
  | succ n ih =>
      intro i dp h1 h2 hc
      by_cases hij : i = j
      · subst hij
        simp [scanLoop, hj]
      · have hci : cancel i = false := hc i le_rfl (by omega)
        have hlt : i + 1 ≤ j := by omega
        have hsub : j - i = (j - (i + 1)) + 1 := by omega
        rw [hsub, List.range'_succ]
        cases hent : entryAt ib i with
        | none =>
            have hrec := ih (i + 1) dp hlt (by omega)
              (fun t ht1 ht2 => hc t (by omega) ht2)
            simp [scanLoop, hci, hent, hrec.1, hrec.2]
        | some pr =>
            obtain ⟨id, off⟩ := pr
            cases hdec : decodeRecord db off id with
            | none =>
                have hrec := ih (i + 1) off hlt (by omega)
                  (fun t ht1 ht2 => hc t (by omega) ht2)
                simp [scanLoop, hci, hent, hdec, hrec.1, hrec.2]
            | some e =>
                have hrec := ih (i + 1) (off + recSize e) hlt (by omega)
                  (fun t ht1 ht2 => hc t (by omega) ht2)
                simp [scanLoop, hci, hent, hdec, hrec.1, hrec.2]

/-- C7: the full-tile scan checks the cancellation token exactly once per
iteration — with no cancellation in the budget it performs exactly `count`
checks and delivers every entry; when the token first reads cancelled at
check `j` inside the budget, it performs `j + 1` checks, delivers exactly
the entries of the first `j` iterations and visits none of the remaining
ones.  The term-query search never consults the token: any two token
states produce identical results. -/
theorem scan_cancellation_and_query_ignores_token (s : StoreState)
    (q : QuadKey) (qry : Query) (cancel c2 : Nat → Bool) (j : Nat)
    (hj : cancel j = true) (hmin : ∀ i < j, cancel i = false) :
    (searchTile s q cancel).2.1 = scanVisits s.disk q (min (scanCount s q) j) ∧
    (searchTile s q cancel).2.2 = min (scanCount s q) (j + 1) ∧
    (searchTile s q (fun _ => false)).2.1 = scanVisits s.disk q (scanCount s q) ∧
    (searchTile s q (fun _ => false)).2.2 = scanCount s q ∧
    searchQuery s qry cancel = searchQuery s qry c2 := by
  obtain ⟨hv, hc⟩ := searchTile_visits s q cancel
  obtain ⟨hv0, hc0⟩ := searchTile_visits s q (fun _ => false)
  have hnc0 := scanLoop_noCancel (indexBytes s.disk q) (dataBytes s.disk q)
    (fun _ => false) (scanCount s q) 0 ((getQuadKeyData s q).1.dataPos)
    (fun t h1 h2 => rfl)
  refine ⟨?_, ?_, ?_, ?_, rfl⟩
  · rw [hv]
    by_cases hle : scanCount s q ≤ j
    · have hh := scanLoop_noCancel (indexBytes s.disk q) (dataBytes s.disk q)
        cancel (scanCount s q) 0 ((getQuadKeyData s q).1.dataPos)
        (fun t h1 h2 => hmin t (by omega))
      rw [hh.1, Nat.min_eq_left hle]
      simp only [scanVisits, List.range_eq_range']
      rfl
    · have hh := scanLoop_cancelAt (indexBytes s.disk q) (dataBytes s.disk q)
        cancel j hj (scanCount s q) 0 ((getQuadKeyData s q).1.dataPos)
        (by omega) (by omega) (fun t h1 h2 => hmin t h2)
      rw [hh.1, Nat.min_eq_right (by omega)]
      simp only [scanVisits, List.range_eq_range', Nat.sub_zero]
      rfl
  · rw [hc]
    by_cases hle : scanCount s q ≤ j
    · have hh := scanLoop_noCancel (indexBytes s.disk q) (dataBytes s.disk q)
        cancel (scanCount s q) 0 ((getQuadKeyData s q).1.dataPos)
        (fun t h1 h2 => hmin t (by omega))
      rw [hh.2]
      omega
    · have hh := scanLoop_cancelAt (indexBytes s.disk q) (dataBytes s.disk q)
        cancel j hj (scanCount s q) 0 ((getQuadKeyData s q).1.dataPos)
        (by omega) (by omega) (fun t h1 h2 => hmin t h2)
      rw [hh.2]
      omega
  · rw [hv0, hnc0.1]
    simp only [scanVisits, List.range_eq_range']
    rfl
  · rw [hc0, hnc0.2]

/-- Witness for C7 at a concrete two-element store with a token that turns
cancelled at check 1: one element visited, two checks. -/
theorem scan_cancellation_witness :
    (searchTile ([eW1, eW2].foldl (fun s e => store s e qW) initState) qW
      (fun i => decide (1 ≤ i))).2.2 = 2 :=
  by
    have hh := (scan_cancellation_and_query_ignores_token
      ([eW1, eW2].foldl (fun s e => store s e qW) initState) qW
      ⟨[], [], [], ⟨0, 0, 9, 9⟩, ⟨0, 5⟩⟩ (fun i => decide (1 ≤ i))
      (fun _ => false) 1 (by decide) (by decide)).2.1
    rw [hh]
    have hcnt : scanCount ([eW1, eW2].foldl (fun s e => store s e qW) initState) qW = 2 := by
      decide
    rw [hcnt]
    decide

/-! ## C4: geometric filter composition -/

theorem queryFold_filter (qry : Query) (q : QuadKey) :
    ∀ (orders : List Nat) (st : StoreState) (accF accR : List Element),
      accF = accR.filter (fun e => intersects e qry.boundingBox) →
      (orders.foldl (queryStep qry q) (st, accF)).1 =
        (orders.foldl (queryStepRaw q) (st, accR)).1 ∧
      (orders.foldl (queryStep qry q) (st, accF)).2 =
        ((orders.foldl (queryStepRaw q) (st, accR)).2).filter
          (fun e => intersects e qry.boundingBox) := by
  intro orders
  induction orders with
  | nil =>
      intro st accF accR h
      exact ⟨rfl, by simpa using h⟩
  | cons o os ih =>
      intro st accF accR h
      simp only [List.foldl_cons]
      rcases hn : notifyOp st q o with ⟨st', eo⟩
      cases eo with
      | none =>
          have hrec := ih st' accF accR h
          simpa [queryStep, queryStepRaw, hn] using hrec
      | some e =>
          have hacc : accF ++ (if intersects e qry.boundingBox then [e] else [])
              = (accR ++ [e]).filter (fun e => intersects e qry.boundingBox) := by
            rw [List.filter_append, h]
            by_cases hP : intersects e qry.boundingBox <;> simp [hP]
          have hrec := ih st' _ _ hacc
          simpa [queryStep, queryStepRaw, hn] using hrec

theorem searchQueryOnTile_filter (st : StoreState) (qry : Query) (q : QuadKey) :
    (searchQueryOnTile st qry q).1 = (searchQueryOnTileRaw st qry q).1 ∧
    (searchQueryOnTile st qry q).2 =
      ((searchQueryOnTileRaw st qry q).2).filter
        (fun e => intersects e qry.boundingBox) := by
  rcases hg : getQuadKeyData st q with ⟨h, s1⟩
  rcases hb : getBitmapOp h (blobOf s1.disk q) with ⟨h2, bmp, fl⟩
  simp only [searchQueryOnTile, searchQueryOnTileRaw, hg, hb]
  exact queryFold_filter qry q (bmpMatches bmp qry) _ [] [] rfl

theorem tileFold_filter (qry : Query) :
    ∀ (tiles : List QuadKey) (st : StoreState) (accF accR : List Element),
      accF = accR.filter (fun e => intersects e qry.boundingBox) →
      (tiles.foldl (tileStep qry) (st, accF)).1 =
        (tiles.foldl (tileStepRaw qry) (st, accR)).1 ∧
      (tiles.foldl (tileStep qry) (st, accF)).2 =
        ((tiles.foldl (tileStepRaw qry) (st, accR)).2).filter
          (fun e => intersects e qry.boundingBox) := by
  intro tiles
  induction tiles with
  | nil =>
      intro st accF accR h
      exact ⟨rfl, by simpa using h⟩
  | cons t ts ih =>
      intro st accF accR h
      simp only [List.foldl_cons]
      obtain ⟨hst, hout⟩ := searchQueryOnTile_filter st qry t
      have hacc : accF ++ (searchQueryOnTile st qry t).2
          = (accR ++ (searchQueryOnTileRaw st qry t).2).filter
              (fun e => intersects e qry.boundingBox) := by
        rw [List.filter_append, h, hout]
      have hrec := ih ((searchQueryOnTileRaw st qry t).1) _ _ hacc
      simpa [tileStep, tileStepRaw, hst] using hrec

/-- C4: for every term query, the elements delivered to the caller's
visitor are exactly the candidates produced by the bitmap query's decode
step filtered by geometric intersection with the requested bounding box —
a candidate outside the box is never forwarded, every intersecting
candidate is forwarded, and the state evolution is the same. -/
theorem query_geometric_filter (s : StoreState) (qry : Query)
    (cancel : Nat → Bool) :
    (searchQuery s qry cancel).1 = (searchQueryRaw s qry).1 ∧
    (searchQuery s qry cancel).2 =
      ((searchQueryRaw s qry).2).filter
        (fun e => intersects e qry.boundingBox) := by
  simp only [searchQuery, searchQueryRaw]
  exact tileFold_filter qry _ s [] [] rfl

/-! ## C5: best-effort erase -/

/-- Existence of one of a tile's three files. -/
def fileExistsOn (d : Disk) (q : QuadKey) : FileKind → Bool
  | .dat => ((lookupTile d q).bind TileFiles.dataF).isSome
  | .idf => ((lookupTile d q).bind TileFiles.indexF).isSome
  | .bmp => ((lookupTile d q).bind TileFiles.bitmapF).isSome

theorem removeFile_eq {α : Type} (f : Option α) (ok : Bool) :
    removeFile f ok = ((if ok = true then none else f), f.isSome && ok) := by
  cases f <;> cases ok <;> simp [removeFile]

/-- C5: `erase(T)` attempts to remove all three of the tile's files: a file
whose removal succeeds is gone no matter what happens to its siblings, a
file whose removal fails is left exactly as it was, the failure log holds
one entry per offending path (a `std::remove` also fails when the file
does not exist), the whole cache is cleared and no error reaches the
caller; when every removal succeeds, `hasData(T)` is false afterwards and
a subsequent full scan of `T` visits nothing, checks no token and simply
re-creates the tile's files as empty ones. -/
theorem erase_best_effort (s : StoreState) (q : QuadKey) (ok : FileKind → Bool) :
    (∀ k, ok k = true → fileExistsOn (eraseTile s q ok).1.disk q k = false) ∧
    (∀ k, ok k = false → fileExistsOn (eraseTile s q ok).1.disk q k =
      fileExistsOn ((getQuadKeyData s q).2).disk q k) ∧
    (eraseTile s q ok).2 =
      [FileKind.dat, FileKind.idf, FileKind.bmp].filter
        (fun k => !(fileExistsOn ((getQuadKeyData s q).2).disk q k && ok k)) ∧
    (eraseTile s q ok).1.cache = [] ∧
    ((ok FileKind.dat = true ∧ ok FileKind.idf = true ∧ ok FileKind.bmp = true) →
      ∀ cancel,
        (hasDataOp (eraseTile s q ok).1 q).2 = false ∧
        (searchTile (eraseTile s q ok).1 q cancel).2.1 = [] ∧
        (searchTile (eraseTile s q ok).1 q cancel).2.2 = 0 ∧
        fileExistsOn ((searchTile (eraseTile s q ok).1 q cancel).1).disk q
          FileKind.dat = true) := by
  rcases hg : getQuadKeyData s q with ⟨h0, s1⟩
  have hr : eraseTile s q ok =
      ({ disk := setTile s1.disk q
            { dataF := if ok FileKind.dat = true then none
                else ((lookupTile s1.disk q).getD
                  { dataF := none, indexF := none, bitmapF := none }).dataF
            , indexF := if ok FileKind.idf = true then none
                else ((lookupTile s1.disk q).getD
                  { dataF := none, indexF := none, bitmapF := none }).indexF
            , bitmapF := if ok FileKind.bmp = true then none
                else ((lookupTile s1.disk q).getD
                  { dataF := none, indexF := none, bitmapF := none }).bitmapF }
       , cache := [] }
      , (if ((lookupTile s1.disk q).getD
            { dataF := none, indexF := none, bitmapF := none }).dataF.isSome
            && ok FileKind.dat then [] else [FileKind.dat]) ++
        ((if ((lookupTile s1.disk q).getD
            { dataF := none, indexF := none, bitmapF := none }).indexF.isSome
            && ok FileKind.idf then [] else [FileKind.idf]) ++
        (if ((lookupTile s1.disk q).getD
            { dataF := none, indexF := none, bitmapF := none }).bitmapF.isSome
            && ok FileKind.bmp then [] else [FileKind.bmp]))) := by
    simp only [eraseTile, hg, removeFile_eq, List.append_assoc]
  have hbind : ∀ d' q',
      ((lookupTile d' q').getD
        { dataF := none, indexF := none, bitmapF := none }).dataF
        = (lookupTile d' q').bind TileFiles.dataF ∧
      ((lookupTile d' q').getD
        { dataF := none, indexF := none, bitmapF := none }).indexF
        = (lookupTile d' q').bind TileFiles.indexF ∧
      ((lookupTile d' q').getD
        { dataF := none, indexF := none, bitmapF := none }).bitmapF
        = (lookupTile d' q').bind TileFiles.bitmapF := by
    intro d' q'
    cases lookupTile d' q' <;> simp
  refine ⟨?_, ?_, ?_, ?_, ?_⟩
  · intro k hk
    cases k <;>
      simp [hr, fileExistsOn, hk, lookupTile_setTile_self]
  · intro k hk
    cases k <;>
      simp [hr, fileExistsOn, hk, lookupTile_setTile_self, hg, (hbind s1.disk q).1,
        (hbind s1.disk q).2.1, (hbind s1.disk q).2.2]
  · rw [hr]
    simp only [hg]
    obtain ⟨hb1, hb2, hb3⟩ := hbind s1.disk q
    simp only [List.filter, fileExistsOn, ← hb1, ← hb2, ← hb3]
    by_cases h1 : (((lookupTile s1.disk q).getD
        { dataF := none, indexF := none, bitmapF := none }).dataF).isSome
        && ok FileKind.dat <;>
      by_cases h2 : (((lookupTile s1.disk q).getD
        { dataF := none, indexF := none, bitmapF := none }).indexF).isSome
        && ok FileKind.idf <;>
      by_cases h3 : (((lookupTile s1.disk q).getD
        { dataF := none, indexF := none, bitmapF := none }).bitmapF).isSome
        && ok FileKind.bmp <;>
      simp [h1, h2, h3]
  · simp [hr]
  · rintro ⟨hd, hi, hb⟩ cancel
    have hr1 : (eraseTile s q ok).1 =
        { disk := setTile s1.disk q
            { dataF := none, indexF := none, bitmapF := none }
        , cache := [] } := by
      rw [hr]
      simp [hd, hi, hb]
    rw [hr1]
    have hopen : lookupTile (setTile s1.disk q
        { dataF := none, indexF := none, bitmapF := none }) q =
        some { dataF := none, indexF := none, bitmapF := none } :=
      lookupTile_setTile_self _ _ _
    refine ⟨by simp [hasDataOp, hopen], ?_, ?_, ?_⟩
    · simp [searchTile, getQuadKeyData, cacheFind, openTile, hopen, cachePut,
        cacheCapacity, scanLoop, modifyHandle, indexBytes, dataBytes]
    · simp [searchTile, getQuadKeyData, cacheFind, openTile, hopen, cachePut,
        cacheCapacity, scanLoop, modifyHandle, indexBytes, dataBytes]
    · simp [searchTile, getQuadKeyData, cacheFind, openTile, hopen, cachePut,
        cacheCapacity, scanLoop, modifyHandle, indexBytes, dataBytes,
        fileExistsOn, lookupTile_setTile_self]

/-- Witness for C5: after a store and a fully successful erase, the tile
reports no data. -/
theorem erase_best_effort_witness :
    (hasDataOp (eraseTile (store initState eW1 qW) qW (fun _ => true)).1 qW).2
      = false :=
  ((erase_best_effort (store initState eW1 qW) qW (fun _ => true)).2.2.2.2
    ⟨rfl, rfl, rfl⟩ (fun _ => false)).1

/-! ## C8: lazy bitmap loading -/

/-- An element with no terms: storing it leaves the tile's bitmap blob
empty, so the emptiness test that guards the lazy load never turns off. -/
def eNT : Element := { id := 9, box := ⟨0, 0, 1, 1⟩, terms := [], payload := [] }

/-- Counterexample to C8: take the tile that holds only a term-less
element, drop the cache (`flush`), re-open the handle and access its
bitmap twice.  The second access — during the same handle's lifetime,
after the first access already deserialized the blob — hits the disk
again (read flag `true`), because the reload guard is "in-memory bitmap
empty", not "first access". -/
theorem bitmap_reload_counterexample :
    (getBitmapOp
      (getBitmapOp ((getQuadKeyData (flush (store initState eNT qW)) qW).1)
        (blobOf (flush (store initState eNT qW)).disk qW)).1
      (blobOf (flush (store initState eNT qW)).disk qW)).2.2 = true := by
  decide

/-- C8 (amended): a fresh handle created on a cache miss starts with an
empty in-memory bitmap; every bitmap access while the in-memory copy is
empty — the first access included — deserializes the blob from disk, and
once the in-memory copy is non-empty every further access returns it
without touching the disk. -/
theorem bitmap_lazy_load (h : Handle) (blob : Option Bitmap) (d : Disk)
    (q : QuadKey) :
    ((openTile d q).2).bitmap = [] ∧
    (h.bitmap = [] →
      getBitmapOp h blob = ({ h with bitmap := blob.getD [] }, blob.getD [], true)) ∧
    (h.bitmap ≠ [] → getBitmapOp h blob = (h, h.bitmap, false)) := by
  refine ⟨rfl, ?_, ?_⟩
  · intro he
    simp [getBitmapOp, he]
  · intro hne
    obtain ⟨dp, ip, bm⟩ := h
    cases bm with
    | nil => simp at hne
    | cons x xs => simp [getBitmapOp]

/-- Witness for C8 (amended): a handle with a loaded non-empty bitmap is
returned as-is, with no disk read. -/
theorem bitmap_lazy_load_witness :
    getBitmapOp ⟨0, 0, [(7, [true])]⟩ (some []) =
      (⟨0, 0, [(7, [true])]⟩, [(7, [true])], false) :=
  (bitmap_lazy_load ⟨0, 0, [(7, [true])]⟩ (some []) [] qW).2.2 (by decide)

/-! ## C3: bitmap state after a store -/

/-- Counterexample to C3: store `eW1` (term 7) then `eW2` (term 8) under
one tile.  The tile then holds 2 entries, but term 7's bit-vector still
has length 1 — `add` only grows the vectors of the stored element's own
terms, so "every term bitmap's length ≥ the current entry count" fails. -/
theorem bitmap_length_counterexample :
    (bmpVec ((cacheFind (store (store initState eW1 qW) eW2 qW).cache qW).getD
        ⟨0, 0, []⟩).bitmap 7).length = 1 ∧
    (indexBytes (store (store initState eW1 qW) eW2 qW).disk qW).length / 12 = 2 := by
  decide

theorem bmpVec_bmpSet_self (b : Bitmap) (t : Nat) (v : List Bool) :
    bmpVec (bmpSet b t v) t = v := by
  induction b with
  | nil => simp [bmpSet, bmpVec]
  | cons p b ih =>
      by_cases h : p.1 = t
      · simp [bmpSet, bmpVec, h]
      · simp [bmpSet, bmpVec, h, ih]

theorem bmpVec_bmpSet_ne (b : Bitmap) (t t' : Nat) (v : List Bool)
    (hne : t' ≠ t) : bmpVec (bmpSet b t v) t' = bmpVec b t' := by
  have h2 : ¬t = t' := fun hh => hne hh.symm
  induction b with
  | nil => simp [bmpSet, bmpVec, h2]
  | cons p b ih =>
      by_cases h : p.1 = t
      · have h3 : ¬p.1 = t' := by rw [h]; exact h2
        simp [bmpSet, bmpVec, h, h2, h3, hne]
      · by_cases h' : p.1 = t'
        · simp [bmpSet, bmpVec, h, h', hne]
        · simp [bmpSet, bmpVec, h, h', ih]

theorem setBit_length (v : List Bool) (i : Nat) :
    (setBit v i).length = max v.length (i + 1) := by
  simp [setBit]
  omega

theorem setBit_getD (v : List Bool) (i : Nat) :
    (setBit v i).getD i false = true := by
  have hi : i < (v ++ List.replicate (i + 1 - v.length) false).length := by
    simp
    omega
  simp only [setBit, List.getD_eq_getElem?_getD]
  rw [List.getElem?_set_eq_of_lt true hi]
  rfl

theorem bmpAdd_absent (ts : List Nat) :
    ∀ (b : Bitmap) (o t : Nat), t ∉ ts →
      bmpVec (bmpAdd b ts o) t = bmpVec b t := by
  induction ts with
  | nil => intro b o t _; rfl
  | cons u ts ih =>
      intro b o t ht
      have htu : t ≠ u := fun h => ht (h ▸ List.mem_cons_self u ts)
      have hts : t ∉ ts := fun h => ht (List.mem_cons_of_mem u h)
      show bmpVec (bmpAdd (bmpSet b u (setBit (bmpVec b u) o)) ts o) t = bmpVec b t
      rw [ih _ o t hts, bmpVec_bmpSet_ne _ _ _ _ htu]

/-- `add` gives every term of the stored element a bit-vector that covers
the assigned order and has that bit set. -/
theorem bmpAdd_sets (ts : List Nat) :
    ∀ (b : Bitmap) (o t : Nat), t ∈ ts →
      o + 1 ≤ (bmpVec (bmpAdd b ts o) t).length ∧
      (bmpVec (bmpAdd b ts o) t).getD o false = true := by
  induction ts with
  | nil => intro b o t h; cases h
  | cons u ts ih =>
      intro b o t ht
      by_cases hin : t ∈ ts
      · exact ih _ o t hin
      · have htu : t = u := by
          rcases List.mem_cons.mp ht with h | h
          · exact h
          · exact absurd h hin
        subst htu
        show o + 1 ≤ (bmpVec (bmpAdd (bmpSet b t (setBit (bmpVec b t) o)) ts o) t).length ∧
          (bmpVec (bmpAdd (bmpSet b t (setBit (bmpVec b t) o)) ts o) t).getD o false = true
        rw [bmpAdd_absent ts _ o t hin, bmpVec_bmpSet_self]
        exact ⟨by rw [setBit_length]; omega, setBit_getD _ o⟩

@[simp] theorem cacheFind_cachePromote_self (c : Cache) (q : QuadKey) :
    cacheFind (cachePromote c q) q = cacheFind c q := by
  unfold cachePromote
  cases hf : cacheFind c q
  · simpa using hf
  · simp [cacheFind]

@[simp] theorem cacheFind_cachePut_self (c : Cache) (q : QuadKey) (h : Handle) :
    cacheFind (cachePut c q h) q = some h := by
  simp [cachePut, cacheFind]

theorem cacheFind_getQuadKeyData_self (s : StoreState) (q : QuadKey) :
    cacheFind ((getQuadKeyData s q).2).cache q = some (getQuadKeyData s q).1 := by
  rcases hop : openTile s.disk q with ⟨d', hh⟩
  cases hf : cacheFind s.cache q <;> simp [getQuadKeyData, hf, hop]

@[simp] theorem blobOf_setBlob_self (d : Disk) (q : QuadKey) (b : Bitmap) :
    blobOf (setBlob d q b) q = some b := by
  simp [setBlob, blobOf]

/-- `getBitmap` in closed form. -/
theorem getBitmapOp_eq (h : Handle) (b : Option Bitmap) :
    getBitmapOp h b =
      ({ h with bitmap := if h.bitmap.isEmpty then b.getD [] else h.bitmap }
      , (if h.bitmap.isEmpty then b.getD [] else h.bitmap)
      , h.bitmap.isEmpty) := by
  obtain ⟨dp, ip, bm⟩ := h
  cases bm <;> simp [getBitmapOp]

/-- Structure of the state `store` leaves behind, for an arbitrary starting
state: the tile's cached handle holds some bitmap `fb`, the on-disk blob
was rewritten to exactly `fb`, and — whenever the element has any terms —
`fb` is `add`'s result on the element's terms at the assigned order. -/
theorem storeE_final_shape (s : StoreState) (e : Element) (q : QuadKey) :
    ∃ dp ip bmp0 fb,
      cacheFind (storeE s e q).1.cache q =
        some { dataPos := dp, indexPos := ip, bitmap := fb } ∧
      blobOf (storeE s e q).1.disk q = some fb ∧
      (e.terms = [] ∨ fb = bmpAdd bmp0 e.terms (storeE s e q).2) := by
  rcases hg : getQuadKeyData s q with ⟨h, s1⟩
  have hf1 : cacheFind s1.cache q = some h := by
    have hh := cacheFind_getQuadKeyData_self s q
    rw [hg] at hh
    exact hh
  simp only [storeE, hg]
  simp only [modifyHandle, getQuadKeyData, cacheFind_cacheModify_self,
    cacheFind_cachePromote_self, hf1, Option.map_some', getBitmapOp_eq,
    blobOf_setLogs_self, blobOf_setBlob_self]
  refine ⟨(dataBytes s1.disk q ++ encodeRecord e).length,
    (indexBytes s1.disk q ++ encodeEntry e.id (h.dataPos % 2 ^ 32)).length,
    (if h.bitmap.isEmpty then (blobOf s1.disk q).getD [] else h.bitmap),
    (if (bmpAdd (if h.bitmap.isEmpty then (blobOf s1.disk q).getD [] else h.bitmap)
        e.terms (h.indexPos / 12 % 2 ^ 32)).isEmpty
     then (blobOf s1.disk q).getD []
     else bmpAdd (if h.bitmap.isEmpty then (blobOf s1.disk q).getD [] else h.bitmap)
        e.terms (h.indexPos / 12 % 2 ^ 32)), rfl, rfl, ?_⟩
  cases hts : e.terms with
    | nil => exact Or.inl rfl
    | cons t ts =>
        refine Or.inr ?_
        have hne := bmpAdd_ne_nil_of_terms
          (if h.bitmap.isEmpty then (blobOf s1.disk q).getD [] else h.bitmap)
          t ts (h.indexPos / 12 % 2 ^ 32)
        have hcnot : ¬ ((bmpAdd
            (if h.bitmap.isEmpty then (blobOf s1.disk q).getD [] else h.bitmap)
            (t :: ts) (h.indexPos / 12 % 2 ^ 32)).isEmpty = true) :=
          fun hq => absurd (List.isEmpty_iff.mp hq) hne
        exact if_neg hcnot

/-- C3 (amended): after every successful store, the bit-vector of each
term attached to the newly stored element covers the order this store
assigned (length ≥ order + 1) and has the bit at that order set, and the
full bitmap blob has been rewritten to disk, so the on-disk blob equals
the updated in-memory bitmap.  (The original claim's "every term's
bit-vector has length ≥ the current entry count" fails — see the
counterexample: `add` only grows the stored element's own vectors.) -/
theorem store_bitmap_invariant (s : StoreState) (e : Element) (q : QuadKey) :
    (∀ t ∈ e.terms,
      (storeE s e q).2 + 1 ≤
        (bmpVec ((cacheFind (storeE s e q).1.cache q).getD
          ⟨0, 0, []⟩).bitmap t).length ∧
      (bmpVec ((cacheFind (storeE s e q).1.cache q).getD
          ⟨0, 0, []⟩).bitmap t).getD (storeE s e q).2 false = true) ∧
    blobOf (storeE s e q).1.disk q =
      some ((cacheFind (storeE s e q).1.cache q).getD ⟨0, 0, []⟩).bitmap := by
  obtain ⟨dp, ip, bmp0, fb, hc, hb, hor⟩ := storeE_final_shape s e q
  constructor
  · intro t ht
    rcases hor with hnil | heq
    · rw [hnil] at ht
      cases ht
    · rw [hc]
      simp only [Option.getD_some]
      rw [heq]
      exact bmpAdd_sets e.terms bmp0 ((storeE s e q).2) t ht
  · rw [hc, hb]
    rfl

/-- Witness for C3 (amended): the first stored element's term has its bit
set at the assigned order. -/
theorem store_bitmap_invariant_witness :
    (bmpVec ((cacheFind (storeE initState eW1 qW).1.cache qW).getD
      ⟨0, 0, []⟩).bitmap 7).getD (storeE initState eW1 qW).2 false = true :=
  ((store_bitmap_invariant initState eW1 qW).1 7 (by decide)).2

/-! ## C2: stale stream positions corrupt the recorded offset and order -/

/-- A third element to store after a bitmap-query decode. -/
def eW3 : Element := { id := 3, box := ⟨4, 4, 5, 5⟩, terms := [7], payload := [12] }

/-- A term query matching only the element at insertion order 0. -/
def qryBug : Query :=
  { notTerms := [], andTerms := [7], orTerms := []
  , boundingBox := ⟨0, 0, 10, 10⟩, lodRange := ⟨0, 5⟩ }

/-- Two stores, then a bitmap-query decode of order 0 on the same tile:
the decode leaves the data stream's position at the end of record 0 (byte
29) and the index stream's position at byte 12, not at end of file. -/
def sBug : StoreState :=
  (searchQuery (store (store initState eW1 qW) eW2 qW) qryBug
    (fun _ => false)).1

/-- C2 fails on the code: in the state reached by two stores followed by a
bitmap-query decode on the same tile, the data log's end of file is byte
59 and the index log holds 2 entries; yet the next `store` reads the stale
`tellg()` positions, records offset 29 — the middle of the data log, where
the payload is *not* written — into the new index entry, and assigns
insertion order 1, which is already taken.  The claim's equalities hold
only when the stream positions happen to sit at end of file. -/
theorem store_stale_position_bug :
    (dataBytes sBug.disk qW).length = 59 ∧
    (indexBytes sBug.disk qW).length / 12 = 2 ∧
    entryAt (indexBytes (storeE sBug eW3 qW).1.disk qW) 2 = some (3, 29) ∧
    (storeE sBug eW3 qW).2 = 1 ∧
    (dataBytes (storeE sBug eW3 qW).1.disk qW).length = 59 + 29 := by
  decide

/-! ## C9: flush durability -/

/-- Two disks agree on everything a read ever observes: the bytes of the
data and index logs and the bitmap blob of every tile. -/
def DiskEq (d d' : Disk) : Prop :=
  (∀ r, dataBytes d r = dataBytes d' r) ∧
  (∀ r, indexBytes d r = indexBytes d' r) ∧
  (∀ r, blobOf d r = blobOf d' r)

theorem DiskEq.refl (d : Disk) : DiskEq d d :=
  ⟨fun _ => rfl, fun _ => rfl, fun _ => rfl⟩

/-- Cache/disk consistency: every cached handle's in-memory bitmap is
either still unloaded (empty) or the tile's on-disk blob. -/
def BmpInv (s : StoreState) : Prop :=
  ∀ p ∈ s.cache, p.2.bitmap = [] ∨ p.2.bitmap = (blobOf s.disk p.1).getD []

theorem visitAt_diskEq {d d' : Disk} (h : DiskEq d d') (q : QuadKey) (i : Nat) :
    visitAt d q i = visitAt d' q i := by
  unfold visitAt
  rw [h.1 q, h.2.1 q]

theorem mem_cacheDrop {p : QuadKey × Handle} {c : Cache} {q : QuadKey} :
    p ∈ cacheDrop c q → p ∈ c := by
  induction c with
  | nil => intro h; simp [cacheDrop] at h
  | cons p' c ih =>
      intro h
      by_cases hq : p'.1 = q
      · simp only [cacheDrop, if_pos hq] at h
        exact List.mem_cons_of_mem _ (ih h)
      · simp only [cacheDrop, if_neg hq, List.mem_cons] at h
        rcases h with h | h
        · exact h ▸ List.mem_cons_self _ _
        · exact List.mem_cons_of_mem _ (ih h)

theorem cacheFind_mem {c : Cache} {q : QuadKey} {h : Handle}
    (hf : cacheFind c q = some h) : (q, h) ∈ c := by
  induction c with
  | nil => simp [cacheFind] at hf
  | cons p c ih =>
      by_cases hq : p.1 = q
      · simp only [cacheFind, if_pos hq, Option.some.injEq] at hf
        subst hf
        rw [← hq]
        exact List.mem_cons_self _ _
      · simp only [cacheFind, if_neg hq] at hf
        exact List.mem_cons_of_mem _ (ih hf)

theorem mem_cachePromote {p : QuadKey × Handle} {c : Cache} {q : QuadKey} :
    p ∈ cachePromote c q → p ∈ c := by
  unfold cachePromote
  cases hf : cacheFind c q with
  | none => exact id
  | some h =>
      intro hp
      rcases List.mem_cons.mp hp with hp | hp
      · exact hp ▸ cacheFind_mem hf
      · exact mem_cacheDrop hp

theorem mem_cachePut {p : QuadKey × Handle} {c : Cache} {q : QuadKey}
    {h : Handle} : p ∈ cachePut c q h → p = (q, h) ∨ p ∈ c := by
  intro hp
  rcases List.mem_cons.mp hp with hp | hp
  · exact Or.inl hp
  · refine Or.inr ?_
    by_cases hlen : cacheCapacity ≤ c.length
    · rw [if_pos hlen] at hp
      exact List.dropLast_subset c hp
    · rw [if_neg hlen] at hp
      exact hp

theorem cacheModify_eq_map (c : Cache) (q : QuadKey) (f : Handle → Handle) :
    cacheModify c q f = c.map (fun p => if p.1 = q then (p.1, f p.2) else p) := by
  induction c with
  | nil => rfl
  | cons p c ih => simp [cacheModify, ih]

/-- The handle that `getQuadKeyData` returns satisfies the cache/bitmap
invariant relative to the pre-call disk. -/
theorem getQuadKeyData_handle_inv (s : StoreState) (q : QuadKey)
    (hb : BmpInv s) :
    ((getQuadKeyData s q).1).bitmap = [] ∨
    ((getQuadKeyData s q).1).bitmap = (blobOf s.disk q).getD [] := by
  rw [getQuadKeyData_fst]
  cases hf : cacheFind s.cache q with
  | none => exact Or.inl rfl
  | some h => exact hb (q, h) (cacheFind_mem hf)

/-- `getQuadKeyData` preserves everything a read observes on disk. -/
theorem getQuadKeyData_diskEq (s : StoreState) (q : QuadKey) :
    DiskEq ((getQuadKeyData s q).2).disk s.disk :=
  ⟨fun r => dataBytes_getQuadKeyData s q r,
   fun r => indexBytes_getQuadKeyData s q r,
   fun r => blobOf_getQuadKeyData s q r⟩

/-- `getQuadKeyData` preserves the cache/bitmap invariant. -/
theorem getQuadKeyData_bmpInv (s : StoreState) (q : QuadKey) (hb : BmpInv s) :
    BmpInv ((getQuadKeyData s q).2) := by
  intro p hp
  have hblob : ∀ r, blobOf ((getQuadKeyData s q).2).disk r = blobOf s.disk r :=
    fun r => blobOf_getQuadKeyData s q r
  rw [hblob]
  rcases hop : openTile s.disk q with ⟨d', hh⟩
  cases hf : cacheFind s.cache q with
  | some h0 =>
      simp only [getQuadKeyData, hf] at hp
      exact hb p (mem_cachePromote hp)
  | none =>
      simp only [getQuadKeyData, hf, hop] at hp
      rcases mem_cachePut hp with hp | hp
      · subst hp
        left
        have : hh = (openTile s.disk q).2 := by rw [hop]
        rw [this]
        rfl
      · exact hb p hp

theorem DiskEq.trans {a b c : Disk} (h1 : DiskEq a b) (h2 : DiskEq b c) :
    DiskEq a c :=
  ⟨fun r => (h1.1 r).trans (h2.1 r),
   fun r => (h1.2.1 r).trans (h2.2.1 r),
   fun r => (h1.2.2 r).trans (h2.2.2 r)⟩

/-- `BmpInv` survives an in-place handle update that keeps the bitmap. -/
theorem bmpInv_modifyHandle (s : StoreState) (q : QuadKey) (f : Handle → Handle)
    (hf : ∀ h, (f h).bitmap = h.bitmap) (hb : BmpInv s) :
    BmpInv (modifyHandle s q f) := by
  intro p hp
  simp only [modifyHandle, cacheModify_eq_map, List.mem_map] at hp
  obtain ⟨p', hp', hpe⟩ := hp
  by_cases hq : p'.1 = q
  · rw [if_pos hq] at hpe
    subst hpe
    simpa [hf] using hb p' hp'
  · rw [if_neg hq] at hpe
    subst hpe
    exact hb p' hp'

/-- `BmpInv` survives overwriting the tile's handle with one whose bitmap
is empty or the tile's blob. -/
theorem bmpInv_modifyHandle_const (s : StoreState) (q : QuadKey) (h2 : Handle)
    (hb : BmpInv s)
    (hh : h2.bitmap = [] ∨ h2.bitmap = (blobOf s.disk q).getD []) :
    BmpInv (modifyHandle s q (fun _ => h2)) := by
  intro p hp
  simp only [modifyHandle, cacheModify_eq_map, List.mem_map] at hp
  obtain ⟨p', hp', hpe⟩ := hp
  by_cases hq : p'.1 = q
  · rw [if_pos hq] at hpe
    subst hpe
    simpa [hq] using hh
  · rw [if_neg hq] at hpe
    subst hpe
    exact hb p' hp'

/-- The element `notify` decodes depends only on the on-disk logs. -/
theorem notifyOp_snd (st : StoreState) (q : QuadKey) (o : Nat) :
    (notifyOp st q o).2 = visitAt st.disk q o := by
  rcases hg : getQuadKeyData st q with ⟨h, s1⟩
  have h2 : (getQuadKeyData st q).2 = s1 := by rw [hg]
  have hib : indexBytes s1.disk q = indexBytes st.disk q := by
    rw [← h2]
    exact indexBytes_getQuadKeyData st q q
  have hdb : dataBytes s1.disk q = dataBytes st.disk q := by
    rw [← h2]
    exact dataBytes_getQuadKeyData st q q
  simp only [notifyOp, hg, hib, hdb]
  cases hent : entryAt (indexBytes st.disk q) o with
  | none => simp [visitAt, hent]
  | some pr =>
      obtain ⟨id, off⟩ := pr
      cases hdec : decodeRecord (dataBytes st.disk q) off id <;>
        simp [visitAt, hent, hdec]

theorem notifyOp_diskEq (st : StoreState) (q : QuadKey) (o : Nat) :
    DiskEq ((notifyOp st q o).1).disk st.disk := by
  rcases hg : getQuadKeyData st q with ⟨h, s1⟩
  have h2 : (getQuadKeyData st q).2 = s1 := by rw [hg]
  have hde : DiskEq s1.disk st.disk := by
    rw [← h2]
    exact getQuadKeyData_diskEq st q
  simp only [notifyOp, hg]
  cases hent : entryAt (indexBytes s1.disk q) o with
  | none => simpa [modifyHandle] using hde
  | some pr =>
      obtain ⟨id, off⟩ := pr
      cases hdec : decodeRecord (dataBytes s1.disk q) off id
      · simp only [hdec]
        simpa [modifyHandle] using hde
      · simp only [hdec]
        simpa [modifyHandle] using hde

theorem notifyOp_bmpInv (st : StoreState) (q : QuadKey) (o : Nat)
    (hb : BmpInv st) : BmpInv ((notifyOp st q o).1) := by
  rcases hg : getQuadKeyData st q with ⟨h, s1⟩
  have h2 : (getQuadKeyData st q).2 = s1 := by rw [hg]
  have hb1 : BmpInv s1 := by
    rw [← h2]
    exact getQuadKeyData_bmpInv st q hb
  simp only [notifyOp, hg]
  cases hent : entryAt (indexBytes s1.disk q) o with
  | none =>
      simpa using bmpInv_modifyHandle s1 q
        (fun h0 => { dataPos := h0.dataPos, indexPos := o * 12, bitmap := h0.bitmap })
        (fun _ => rfl) hb1
  | some pr =>
      obtain ⟨id, off⟩ := pr
      cases hdec : decodeRecord (dataBytes s1.disk q) off id with
      | none =>
          simp only [hdec]
          simpa using bmpInv_modifyHandle s1 q
            (fun h0 => { dataPos := off, indexPos := o * 12 + 12, bitmap := h0.bitmap })
            (fun _ => rfl) hb1
      | some e =>
          simp only [hdec]
          simpa using bmpInv_modifyHandle s1 q
            (fun h0 => { dataPos := off + recSize e, indexPos := o * 12 + 12, bitmap := h0.bitmap })
            (fun _ => rfl) hb1

/-- The elements one tile contributes to a term query, as a pure function
of the disk: the boolean query evaluated on the tile's blob, each match
decoded from the logs and filtered by the bounding box. -/
def tileQueryPure (d : Disk) (qry : Query) (q : QuadKey) : List Element :=
  (bmpMatches ((blobOf d q).getD []) qry).foldl
    (fun a o =>
      match visitAt d q o with
      | some e => a ++ (if intersects e qry.boundingBox then [e] else [])
      | none => a) []

theorem queryFold_pure (qry : Query) (q : QuadKey) (d : Disk) :
    ∀ (orders : List Nat) (st : StoreState) (acc : List Element),
      DiskEq st.disk d → BmpInv st →
      (orders.foldl (queryStep qry q) (st, acc)).2 =
        orders.foldl (fun a o =>
          match visitAt d q o with
          | some e => a ++ (if intersects e qry.boundingBox then [e] else [])
          | none => a) acc ∧
      DiskEq ((orders.foldl (queryStep qry q) (st, acc)).1).disk d ∧
      BmpInv ((orders.foldl (queryStep qry q) (st, acc)).1) := by
  intro orders
  induction orders with
  | nil => exact fun st acc hd hb => ⟨rfl, hd, hb⟩
  | cons o os ih =>
      intro st acc hd hb
      have hsnd : (notifyOp st q o).2 = visitAt d q o := by
        rw [notifyOp_snd, visitAt_diskEq hd]
      have hde' : DiskEq ((notifyOp st q o).1).disk d :=
        (notifyOp_diskEq st q o).trans hd
      have hbi' : BmpInv ((notifyOp st q o).1) := notifyOp_bmpInv st q o hb
      rcases hn : notifyOp st q o with ⟨st', eo⟩
      rw [hn] at hsnd hde' hbi'
      cases eo with
      | some e =>
          simp only [List.foldl_cons, queryStep, hn, ← hsnd]
          exact ih st' _ hde' hbi'
      | none =>
          simp only [List.foldl_cons, queryStep, hn, ← hsnd]
          exact ih st' _ hde' hbi'

theorem searchQueryOnTile_pure (st : StoreState) (qry : Query) (q : QuadKey)
    (d : Disk) (hd : DiskEq st.disk d) (hb : BmpInv st) :
    (searchQueryOnTile st qry q).2 = tileQueryPure d qry q ∧
    DiskEq ((searchQueryOnTile st qry q).1).disk d ∧
    BmpInv ((searchQueryOnTile st qry q).1) := by
  rcases hg : getQuadKeyData st q with ⟨h, s1⟩
  have h1 : (getQuadKeyData st q).1 = h := by rw [hg]
  have h2 : (getQuadKeyData st q).2 = s1 := by rw [hg]
  have hde1 : DiskEq s1.disk d := by
    rw [← h2]
    exact (getQuadKeyData_diskEq st q).trans hd
  have hb1 : BmpInv s1 := by
    rw [← h2]
    exact getQuadKeyData_bmpInv st q hb
  have hinv : h.bitmap = [] ∨ h.bitmap = (blobOf st.disk q).getD [] := by
    rw [← h1]
    exact getQuadKeyData_handle_inv st q hb
  have hblob1 : blobOf s1.disk q = blobOf d q := hde1.2.2 q
  have hblobst : blobOf st.disk q = blobOf d q := hd.2.2 q
  rcases hgb : getBitmapOp h (blobOf s1.disk q) with ⟨h2', bmp, fl⟩
  have hgbe := getBitmapOp_eq h (blobOf s1.disk q)
  rw [hgb] at hgbe
  have hbmpv : bmp =
      if h.bitmap.isEmpty then (blobOf s1.disk q).getD [] else h.bitmap := by
    have := congrArg (fun t => t.2.1) hgbe
    simpa using this
  have hh2v : h2'.bitmap =
      if h.bitmap.isEmpty then (blobOf s1.disk q).getD [] else h.bitmap := by
    have := congrArg (fun t => t.1.bitmap) hgbe
    simpa using this
  have hbmp : bmp = (blobOf d q).getD [] := by
    rw [hbmpv, hblob1]
    rcases hinv with hi | hi
    · rw [hi]
      rfl
    · rw [hi, hblobst]
      by_cases he : ((blobOf d q).getD []).isEmpty <;> simp [he]
  have hh2 : h2'.bitmap = [] ∨ h2'.bitmap = (blobOf s1.disk q).getD [] := by
    rw [hh2v]
    by_cases he : h.bitmap.isEmpty
    · rw [if_pos he]
      exact Or.inr rfl
    · rw [if_neg he]
      rcases hinv with hi | hi
      · exact Or.inl hi
      · rw [hi, hblobst, ← hblob1]
        exact Or.inr rfl
  have hdm : DiskEq (modifyHandle s1 q (fun _ => h2')).disk d := hde1
  have hbm : BmpInv (modifyHandle s1 q (fun _ => h2')) :=
    bmpInv_modifyHandle_const s1 q h2' hb1 hh2
  have hres := queryFold_pure qry q d (bmpMatches ((blobOf d q).getD []) qry)
    (modifyHandle s1 q (fun _ => h2')) [] hdm hbm
  simp only [searchQueryOnTile, hg, hgb]
  rw [hbmp]
  exact hres

theorem tileFold_pure (qry : Query) (d : Disk) :
    ∀ (tiles : List QuadKey) (st : StoreState) (acc : List Element),
      DiskEq st.disk d → BmpInv st →
      (tiles.foldl (tileStep qry) (st, acc)).2 =
        tiles.foldl (fun a q => a ++ tileQueryPure d qry q) acc := by
  intro tiles
  induction tiles with
  | nil => intro st acc _ _; rfl
  | cons t ts ih =>
      intro st acc hd hb
      obtain ⟨hout, hde, hbi⟩ := searchQueryOnTile_pure st qry t d hd hb
      rcases hq : searchQueryOnTile st qry t with ⟨st', out⟩
      rw [hq] at hout hde hbi
      simp only [List.foldl_cons, tileStep, hq, hout]
      exact ih st' _ hde hbi

theorem openTile_handle (d : Disk) (q : QuadKey) :
    (openTile d q).2 =
      { dataPos := (dataBytes d q).length
      , indexPos := (indexBytes d q).length
      , bitmap := [] } := by
  unfold openTile
  cases hl : lookupTile d q <;> simp [dataBytes, indexBytes, hl]

/-- Scanning more iterations extends the visited list. -/
theorem scanVisits_append (d : Disk) (q : QuadKey) (m n : Nat) (h : m ≤ n) :
    scanVisits d q m ++ (List.range' m (n - m)).filterMap (visitAt d q) =
      scanVisits d q n := by
  have hr := List.range'_append_1 0 m (n - m)
  rw [Nat.zero_add] at hr
  rw [scanVisits, scanVisits, List.range_eq_range', List.range_eq_range',
    ← List.filterMap_append, hr, show n - m + m = n from by omega]

/-- C9: `flush` only drops the in-memory cache, leaving every on-disk file
unchanged.  For every state whose cached handles are consistent with the
disk (in-memory bitmaps are unloaded or equal to the blob, stream
positions within the logs, tiles within the documented 32-bit size limit):
a full tile scan after the flush delivers everything the tile's logs hold,
the scan before the flush delivers a prefix of that same list (so every
element retrievable before stays retrievable, identical, afterwards), and
a term query delivers exactly the same elements before and after. -/
theorem lookupTile_mem {d : Disk} {q : QuadKey} {tf : TileFiles}
    (hl : lookupTile d q = some tf) : (q, tf) ∈ d := by
  induction d with
  | nil => simp [lookupTile] at hl
  | cons p d ih =>
      by_cases hq : p.1 = q
      · simp only [lookupTile, if_pos hq, Option.some.injEq] at hl
        subst hl
        rw [← hq]
        exact List.mem_cons_self _ _
      · simp only [lookupTile, if_neg hq] at hl
        exact List.mem_cons_of_mem _ (ih hl)

theorem flush_durability (s : StoreState)
    (hbmp : ∀ p ∈ s.cache, p.2.bitmap = [] ∨
      p.2.bitmap = (blobOf s.disk p.1).getD [])
    (hpos : ∀ p ∈ s.cache, p.2.indexPos ≤ (indexBytes s.disk p.1).length)
    (hsizeD : ∀ p ∈ s.disk, (p.2.indexF.getD ([] : List Nat)).length / 12 < 2 ^ 32) :
    (flush s).disk = s.disk ∧
    (flush s).cache = [] ∧
    (∀ q, (searchTile (flush s) q (fun _ => false)).2.1 =
        scanVisits s.disk q ((indexBytes s.disk q).length / 12) ∧
      (∃ rest, (searchTile s q (fun _ => false)).2.1 ++ rest =
        scanVisits s.disk q ((indexBytes s.disk q).length / 12))) ∧
    (∀ qry c1 c2, (searchQuery (flush s) qry c1).2 = (searchQuery s qry c2).2) := by
  have hbmpI : BmpInv s := hbmp
  have hsize : ∀ q, (indexBytes s.disk q).length / 12 < 2 ^ 32 := by
    intro q
    cases hl : lookupTile s.disk q with
    | none => simp [indexBytes, hl]
    | some tf =>
        have hh := hsizeD (q, tf) (lookupTile_mem hl)
        simpa [indexBytes, hl] using hh
  refine ⟨rfl, rfl, ?_, ?_⟩
  · intro q
    have hcf : scanCount (flush s) q = (indexBytes s.disk q).length / 12 := by
      rw [scanCount, getQuadKeyData_fst]
      have hnone : cacheFind (flush s).cache q = none := rfl
      rw [hnone, Option.getD_none, openTile_handle]
      exact Nat.mod_eq_of_lt (hsize q)
    have hcb : scanCount s q ≤ (indexBytes s.disk q).length / 12 := by
      rw [scanCount, getQuadKeyData_fst]
      cases hf : cacheFind s.cache q with
      | none =>
          rw [Option.getD_none, openTile_handle]
          exact le_of_eq (Nat.mod_eq_of_lt (hsize q))
      | some hc =>
          have hle := hpos (q, hc) (cacheFind_mem hf)
          calc hc.indexPos / 12 % 2 ^ 32 ≤ hc.indexPos / 12 := Nat.mod_le _ _
            _ ≤ (indexBytes s.disk q).length / 12 :=
              Nat.div_le_div_right hle
    constructor
    · rw [(searchTile_visits (flush s) q (fun _ => false)).1,
        (scanLoop_noCancel (indexBytes (flush s).disk q)
          (dataBytes (flush s).disk q) (fun _ => false)
          (scanCount (flush s) q) 0 ((getQuadKeyData (flush s) q).1.dataPos)
          (fun t h1 h2 => rfl)).1, hcf]
      simp only [scanVisits, List.range_eq_range']
      rfl
    · refine ⟨(List.range' (scanCount s q)
        ((indexBytes s.disk q).length / 12 - scanCount s q)).filterMap
          (visitAt s.disk q), ?_⟩
      rw [(searchTile_visits s q (fun _ => false)).1,
        (scanLoop_noCancel (indexBytes s.disk q) (dataBytes s.disk q)
          (fun _ => false) (scanCount s q) 0
          ((getQuadKeyData s q).1.dataPos) (fun t h1 h2 => rfl)).1]
      have heq : (List.range' 0 (scanCount s q)).filterMap
          (fun t => (entryAt (indexBytes s.disk q) t).bind
            fun pr => decodeRecord (dataBytes s.disk q) pr.2 pr.1) =
          scanVisits s.disk q (scanCount s q) := by
        simp only [scanVisits, List.range_eq_range']
        rfl
      rw [heq]
      exact scanVisits_append s.disk q _ _ hcb
  · intro qry c1 c2
    have hafter := tileFold_pure qry s.disk
      (((flush s).disk.map (fun p => p.1)).filter (inLod qry.lodRange))
      (flush s) [] (DiskEq.refl s.disk)
      (fun p hp => absurd hp (List.not_mem_nil p))
    have hbefore := tileFold_pure qry s.disk
      ((s.disk.map (fun p => p.1)).filter (inLod qry.lodRange))
      s [] (DiskEq.refl s.disk) hbmpI
    simp only [searchQuery]
    rw [hafter, hbefore]
    rfl

/-- Witness for C9 at a concrete state holding two elements. -/
theorem flush_durability_witness :
    (flush ([eW1, eW2].foldl (fun s e => store s e qW) initState)).cache = [] :=
  (flush_durability ([eW1, eW2].foldl (fun s e => store s e qW) initState)
    (by decide) (by decide) (by decide)).2.1

/-! ## C6: range-and-lod deletion is unsupported -/

/-- C6: for every bounding box and level-of-detail range,
`erase(boundingBox, lodRange)` fails immediately with the explicit
"not implemented" error and produces no successor state, so no on-disk
file, cache entry, or bitmap state is modified by the call. -/
theorem eraseBox_always_fails (s : StoreState) (bbox : BoundingBox) (range : LodRange) :
    eraseBox s bbox range =
      Except.error "Deletion by bounding box and lod range is not implemented." := rfl

/-! ## C10: `hasData` is observation-only -/

/-- C10: `hasData(tileKey)` returns the state unchanged (no cache insert,
eviction or reordering, no file creation) and reports exactly whether the
tile's data file exists, probing it read-only; by contrast, the cache-miss
path of `getQuadKeyData` does create the data file. -/
theorem hasData_observation_only (s : StoreState) (q : QuadKey) :
    (hasDataOp s q).1 = s ∧
    (hasDataOp s q).2 = ((lookupTile s.disk q).bind TileFiles.dataF).isSome ∧
    (cacheFind s.cache q = none →
      ((lookupTile ((getQuadKeyData s q).2).disk q).bind TileFiles.dataF).isSome = true) := by
  refine ⟨rfl, rfl, fun hmiss => ?_⟩
  simp [getQuadKeyData, hmiss, openTile]

/-- Witness for C10 at the empty store and tile (1,0,0): the cache-miss
hypothesis holds there and the data file indeed gets created. -/
theorem hasData_observation_only_witness :
    ((lookupTile ((getQuadKeyData initState ⟨1, 0, 0⟩).2).disk ⟨1, 0, 0⟩).bind
      TileFiles.dataF).isSome = true :=
  (hasData_observation_only initState ⟨1, 0, 0⟩).2.2 rfl

end PES
